import Mathlib

/-
Verification of the core pipeline of the HMV Fair Quote tool (`app.py`):
text normalization (uppercasing, date stripping, whitespace collapsing),
greedy fuzzy clustering of combined keys, per-cluster hour statistics,
sequence-overlap similarity scoring, tiered query matching
(exact / approximate / weak) and the decision classifier.

Strings are modelled as `List Char`; numeric (float) values as `ℚ`.
Recursions whose measure is not structural are written with an explicit
fuel parameter (always instantiated with the length of the input, which
is an upper bound for the recursion depth), so that every definition
evaluates by kernel reduction.
-/
/-- Whitespace characters, modelling the regex whitespace class used by
`re.sub` in `normalize_text` and by `str.split` (ASCII range). -/
def isWS (c : Char) : Bool :=
  c = ' ' || c = '\t' || c = '\n' || c = '\r' || c = '\x0b' || c = '\x0c'

/-- Word characters, modelling the regex word class underlying the
word-boundary anchors of the date pattern in `normalize_text` (ASCII range). -/
def isWordChar (c : Char) : Bool :=
  ('0' ≤ c && c ≤ '9') || ('A' ≤ c && c ≤ 'Z') || ('a' ≤ c && c ≤ 'z') || c = '_'

/-- Decimal digit, the regex digit class of the date pattern. -/
def isDigitC (c : Char) : Bool := '0' ≤ c && c ≤ '9'

/-- The two date separators accepted by the date pattern of `normalize_text`. -/
def isSep (c : Char) : Bool := c = '-' || c = '/'

/-- Lower-to-upper case table for ASCII letters (`str.upper`, restricted to the
ASCII case-folding the specification commits to). -/
def upperMap : List (Char × Char) :=
  [('a', 'A'), ('b', 'B'), ('c', 'C'), ('d', 'D'), ('e', 'E'), ('f', 'F'),
   ('g', 'G'), ('h', 'H'), ('i', 'I'), ('j', 'J'), ('k', 'K'), ('l', 'L'),
   ('m', 'M'), ('n', 'N'), ('o', 'O'), ('p', 'P'), ('q', 'Q'), ('r', 'R'),
   ('s', 'S'), ('t', 'T'), ('u', 'U'), ('v', 'V'), ('w', 'W'), ('x', 'X'),
   ('y', 'Y'), ('z', 'Z')]

/-- Uppercase one character (`str.upper` applied characterwise, ASCII). -/
def upperChar (c : Char) : Char :=
  ((upperMap.find? (fun p => p.1 == c)).map (fun p => p.2)).getD c

/-- A digit run of length exactly 1 or 2 (regex `\d(1,2)` followed by a
non-digit): consumes the whole leading digit run, succeeds iff its length is
1 or 2, and returns the remainder. -/
def shortRun (l : List Char) : Option (List Char) :=
  if (l.takeWhile isDigitC).length = 1 ∨ (l.takeWhile isDigitC).length = 2 then
    some (l.dropWhile isDigitC)
  else none

/-- A single date separator (`-` or `/`). -/
def sepTok : List Char → Option (List Char)
  | [] => none
  | c :: cs => if isSep c then some cs else none

/-- A digit run of length 2 to 4 (regex `\d(2,4)` with the following word
boundary checked separately): consumes the whole leading digit run, succeeds
iff its length is between 2 and 4. -/
def yearRun (l : List Char) : Option (List Char) :=
  if 2 ≤ (l.takeWhile isDigitC).length ∧ (l.takeWhile isDigitC).length ≤ 4 then
    some (l.dropWhile isDigitC)
  else none

/-- Word-boundary test after the final digit of the date pattern: the next
character (if any) is not a word character. -/
def boundaryOK : List Char → Bool
  | [] => true
  | c :: _ => !isWordChar c

/-- The final stage of the date pattern: `\d(2,4)` plus the closing word
boundary. -/
def pStage2 (l : List Char) : Option (List Char) :=
  (yearRun l).bind fun f => if boundaryOK f then some f else none

/-- The date pattern from its second digit group on:
`\d(1,2)` then a separator then `\d(2,4)` plus the closing word boundary. -/
def pStage1 (l : List Char) : Option (List Char) :=
  (shortRun l).bind fun b => (sepTok b).bind fun e => pStage2 e

/--
`parseDate l` models one attempt of the regex engine to match the date
pattern of `normalize_text` at the start of `l`:
`\d(1,2)` then `-` or `/` then `\d(1,2)` then `-` or `/` then `\d(2,4)`,
followed by a word boundary.  The leading word boundary is checked by the
caller (`subDates`).  Since the separator class and the digit class are
disjoint, the regex backtracking collapses to whole-run length conditions.
On success the unconsumed remainder is returned.
-/
def parseDate (l : List Char) : Option (List Char) :=
  (shortRun l).bind fun a => (sepTok a).bind fun d => pStage1 d

/--
Fuelled scan for `re.sub(date_pattern, '', text)`.  The Boolean records
whether the character immediately before the current position (in the
original string) is a word character; the pattern starts with a word
boundary and a digit, so a match may only begin when the flag is false.
After a deletion, scanning resumes after the match, whose last character
is a digit, so the flag becomes true.
-/
def subDatesF : Nat → Bool → List Char → List Char
  | 0, _, l => l
  | _ + 1, _, [] => []
  | fuel + 1, b, c :: cs =>
    if b then c :: subDatesF fuel (isWordChar c) cs
    else
      match parseDate (c :: cs) with
      | some rest => subDatesF fuel true rest
      | none => c :: subDatesF fuel (isWordChar c) cs

/-- `re.sub(date_pattern, '', text)` with previous-character context `b`. -/
def subDates (b : Bool) (l : List Char) : List Char := subDatesF l.length b l

/-- Fuelled version of whitespace-run collapsing. -/
def squashF : Nat → List Char → List Char
  | 0, l => l
  | _ + 1, [] => []
  | fuel + 1, c :: cs =>
    if isWS c then ' ' :: squashF fuel (cs.dropWhile isWS)
    else c :: squashF fuel cs

/-- `re.sub(r'\s+', ' ', text)`: every maximal whitespace run becomes a
single space. -/
def squash (l : List Char) : List Char := squashF l.length l

/-- Drop leading whitespace (left half of `str.strip`). -/
def trimL (l : List Char) : List Char := l.dropWhile isWS

/-- Drop trailing whitespace (right half of `str.strip`). -/
def trimR (l : List Char) : List Char := (l.reverse.dropWhile isWS).reverse

/-- `str.strip`. -/
def strip (l : List Char) : List Char := trimR (trimL l)

/-- `normalize_text` from `app.py` on an actual string: uppercase, delete
date-like substrings at word boundaries, collapse whitespace runs to single
spaces, strip.  (The `pd.isna` guard of the source is modelled at the record
level, where missing cells are `Option.none`.) -/
def normalize_text (l : List Char) : List Char :=
  strip (squash (subDates false (l.map upperChar)))

/-- Fuelled version of `str.split()`. -/
def splitWSF : Nat → List Char → List (List Char)
  | 0, _ => []
  | _ + 1, [] => []
  | fuel + 1, c :: cs =>
    if isWS c then splitWSF fuel cs
    else (c :: cs.takeWhile (fun x => !isWS x)) :: splitWSF fuel (cs.dropWhile (fun x => !isWS x))

/-- `str.split()`: whitespace-delimited tokens, no empty tokens. -/
def splitWS (l : List Char) : List (List Char) := splitWSF l.length l

/-- `p` is a prefix of the second argument (Boolean test). -/
def startsWithList : List Char → List Char → Bool
  | [], _ => true
  | _ :: _, [] => false
  | p :: ps, c :: cs => p = c && startsWithList ps cs

/-- The boilerplate marker stripped from discrepancy text before
normalization. -/
def markerStr : List Char := "(FOR REFERENCE ONLY)".data

/-- Fuelled version of marker removal. -/
def stripMarkerF : Nat → List Char → List Char
  | 0, l => l
  | _ + 1, [] => []
  | fuel + 1, c :: cs =>
    if startsWithList markerStr (c :: cs) then stripMarkerF fuel ((c :: cs).drop markerStr.length)
    else c :: stripMarkerF fuel cs

/-- `str.replace("(FOR REFERENCE ONLY)", "")`: delete every (left-to-right,
non-overlapping) occurrence of the marker. -/
def stripMarker (l : List Char) : List Char := stripMarkerF l.length l

/-- The literal `" | "` separator of combined keys. -/
def sepKey : List Char := [' ', '|', ' ']

/--
`noDateAt b l` scans `l` with previous-character word-status `b` and is
true iff no position of `l` admits a match of the date pattern (a match is
admitted at a position iff the preceding character is not a word character
- or the position is the start with `b = false` - and `parseDate` succeeds
on the remaining suffix).
-/
def noDateAt (b : Bool) : List Char → Bool
  | [] => true
  | c :: cs => (b || !(parseDate (c :: cs)).isSome) && noDateAt (isWordChar c) cs

/-- Complement of the whitespace class (`str.split` keeps these). -/
def nonWS (c : Char) : Bool := !isWS c

/-- The head of the list, if any, is not whitespace. -/
def headNotWS : List Char → Bool
  | [] => true
  | d :: _ => !isWS d

/-- Collapsed whitespace shape: every whitespace character is a single space
not followed by further whitespace (the shape `re.sub(r'\s+', ' ', ·)`
produces). -/
def niceWS : List Char → Bool
  | [] => true
  | c :: cs => ((!isWS c) || ((c == ' ') && headNotWS cs)) && niceWS cs

/-- The date pattern `D(1,2) sep D(1,2) sep D(2,4), sep being dash or slash,` (without word boundaries)
matches a prefix of `l` for some choice of group lengths. -/
def patPre (l : List Char) : Bool :=
  [1, 2].any (fun a =>
    ((l.take a).length == a) && (l.take a).all isDigitC &&
      (match l.drop a with
       | s :: r1 =>
         isSep s && ([1, 2].any (fun b =>
           ((r1.take b).length == b) && (r1.take b).all isDigitC &&
             (match r1.drop b with
              | t :: r2 =>
                isSep t && ([2, 3, 4].any (fun k =>
                  ((r2.take k).length == k) && (r2.take k).all isDigitC))
              | [] => false)))
       | [] => false))

/-- Some substring of `l` matches the date pattern
`D(1,2) sep D(1,2) sep D(2,4), sep being dash or slash,` (pure substring containment, no word
boundaries). -/
def containsPat (l : List Char) : Bool :=
  (List.range (l.length + 1)).any (fun i => patPre (l.drop i))

/-- Some digit-slash-digit substring occurs in `l`. -/
def containsDSD : List Char → Bool
  | a :: b :: c :: rest => (isDigitC a && (b == '/') && isDigitC c) || containsDSD (b :: c :: rest)
  | _ => false

/-- Fuelled longest-common-subsequence length on token lists. -/
def lcsLenF : Nat → List (List Char) → List (List Char) → Nat
  | 0, _, _ => 0
  | _ + 1, [], _ => 0
  | _ + 1, _ :: _, [] => 0
  | fuel + 1, a :: as, b :: bs =>
    if a = b then lcsLenF fuel as bs + 1
    else max (lcsLenF fuel (a :: as) bs) (lcsLenF fuel as (b :: bs))

/-- Longest-common-subsequence length of two token lists (the alignment count
`M` of the sequence matcher on token sequences). -/
def lcsLen (x y : List (List Char)) : Nat := lcsLenF (x.length + y.length) x y

/-- Modelled from the spec: `difflib.SequenceMatcher(None, a, b).ratio()`
(an external library call), described by the spec as a
longest-common-subsequence-based similarity on token sequences scaled to
0-1: `2*M/T` with `M` the aligned-token count and `T` the total length;
the library returns 1.0 when `T = 0`. -/
def ratioQ (x y : List (List Char)) : ℚ :=
  if x.length + y.length = 0 then 1
  else 2 * (lcsLen x y : ℚ) / ((x.length : ℚ) + (y.length : ℚ))

/-- `semantic_overlap` from `app.py`: 0 if either string is empty, else the
sequence ratio of the whitespace-token lists, scaled to 0-100. -/
def semantic_overlap (a b : List Char) : ℚ :=
  if a = [] ∨ b = [] then 0 else ratioQ (splitWS a) (splitWS b) * 100

/-- The result quadruple of `get_decision_conclusion`:
(conclusion text, severity color, percent display, css diff class). -/
structure Decision where
  conclusion : String
  color : String
  percent_display : String
  diff_class : String
deriving DecidableEq

/-- One-decimal fixed-point rendering of a rational, as in the f-string
`(percent):.1f` (rounding modelled as round-half-up on `ℚ`; the float
round-half-even difference is not observable in the claims). -/
def fmt1 (q : ℚ) : String :=
  (if round (q * 10) < 0 then "-" else "") ++
    Nat.repr ((round (q * 10) : ℤ).natAbs / 10) ++ "." ++
    Nat.repr ((round (q * 10) : ℤ).natAbs % 10)

/-- The no-historical-data decision (fair value absent or zero). -/
def noHistData : Decision :=
  { conclusion := "No historical data available — manual review recommended."
    color := "#b0202e"
    percent_display := "N/A (no historical data)"
    diff_class := "diff-neutral" }

/-- `get_decision_conclusion` from `app.py`.  `fair = none` models a NaN
fair-quote value (`pd.isna`).  A zero or absent fair value yields the
no-data decision; otherwise the percent difference, its display and css
class are computed, and the conclusion is chosen by the branch chain
`supplier < fair`, `abs(supplier - fair)/fair <= 0.05`, else review. -/
def get_decision_conclusion (supplier : ℚ) (fair : Option ℚ) : Decision :=
  match fair with
  | none => noHistData
  | some f =>
    if f = 0 then noHistData
    else
      let pd := (supplier - f) / f * 100
      let dc := if pd < 0 then "diff-negative"
        else if |pd| ≤ 5 then "diff-neutral" else "diff-positive"
      let disp := (if 0 ≤ pd then "+" else "") ++ fmt1 pd ++ "%"
      if supplier < f then
        { conclusion := "FAIR QUOTE: Supplier below historic average. Consider approving."
          color := "#22aa58"
          percent_display := disp
          diff_class := dc }
      else if |supplier - f| / f ≤ 5 / 100 then
        { conclusion := "IN EXPECTED RANGE (±5%). Consider approving."
          color := "#222f3e"
          percent_display := disp
          diff_class := dc }
      else
        { conclusion := "HIGHER THAN HISTORIC — Needs BP review."
          color := "#b0202e"
          percent_display := disp
          diff_class := dc }

/-- Modelled from the spec: fuzzywuzzy `fuzz.token_set_ratio` (an external
library call, not part of `src/`): an integer 0-100 score comparing the two
strings as unordered sets of whitespace tokens, robust to word order and to
duplicate tokens.  The clustering facts proved below do not depend on the
particular values of this scorer. -/
def token_set_ratio (a b : List Char) : Nat :=
  if ((splitWS a).dedup).length + ((splitWS b).dedup).length = 0 then 0
  else 200 * (((splitWS a).dedup).inter ((splitWS b).dedup)).length /
    (((splitWS a).dedup).length + ((splitWS b).dedup).length)

/-- One pass of the clustering loop body of `app.py`: scan the existing
clusters in creation order; append the key to the first cluster whose
representative scores at least 90 against it; if none does, open a new
cluster with the key as its own representative. -/
def insertKey : List (List Char × List (List Char)) → List Char →
    List (List Char × List (List Char))
  | [], k => [(k, [k])]
  | (r, mem) :: rest, k =>
    if 90 ≤ token_set_ratio k r then (r, mem ++ [k]) :: rest
    else (r, mem) :: insertKey rest k

/-- `pandas.unique`: first-occurrence order deduplication. -/
def firstUniques (seen : List (List Char)) : List (List Char) → List (List Char)
  | [] => []
  | k :: ks => if k ∈ seen then firstUniques seen ks else k :: firstUniques (k :: seen) ks

/-- The `clusters` dict of `app.py`: fold the clustering loop over the
distinct combined keys in first-occurrence order, skipping empty keys
(`if not key: continue`). -/
def buildClusters (keys : List (List Char)) : List (List Char × List (List Char)) :=
  ((firstUniques [] keys).filter (fun k => !k.isEmpty)).foldl insertKey []

/-- The `key_to_rep` mapping of `app.py`: the representative of the cluster
containing a key (each key lies in at most one cluster, so the first hit is
the only one). -/
def key_to_rep (cl : List (List Char × List (List Char))) (k : List Char) :
    Option (List Char) :=
  (cl.find? (fun c => decide (k ∈ c.2))).map (fun c => c.1)

/-- One row of the source dataset.  Text cells are `Option (List Char)`:
`none` models a missing (NaN) cell. -/
structure RawRecord where
  description : Option (List Char)
  correctiveAction : Option (List Char)
  totalHours : ℚ
deriving DecidableEq

/-- `str(x)` applied to a possibly-NaN text cell: a missing cell stringifies
to `"nan"` (this happens on the Description side of `app.py`, where `str` is
applied before `normalize_text` ever sees the value). -/
def descStr : Option (List Char) → List Char
  | none => "nan".data
  | some t => t

/-- `df['Normalized Discrepancy']`: strip the boilerplate marker from the
stringified description, then normalize. -/
def normDiscOf (r : RawRecord) : List Char :=
  normalize_text (stripMarker (descStr r.description))

/-- `df['Normalized Corrective Action']`: `normalize_text` applied directly,
so a missing (NaN) cell hits the `pd.isna` guard and yields the empty
string. -/
def normCorrOf (r : RawRecord) : List Char :=
  match r.correctiveAction with
  | none => []
  | some t => normalize_text t

/-- `df['Combined Key'] = normalized discrepancy + " | " + normalized
corrective action`. -/
def combinedKeyOf (r : RawRecord) : List Char :=
  normDiscOf r ++ sepKey ++ normCorrOf r

/-- `pandas.round(2)`: round to two decimal digits (round-half-up modelled
on `ℚ`; the float half-even difference is not observable in the claims). -/
def round2 (q : ℚ) : ℚ := (round (q * 100) : ℤ) / 100

/-- One row of the enriched reference table (`df` after preprocessing,
clustering and the groupby/merge): the raw fields, the normalized fields,
the combined key, the cluster key (`none` models NaN for unclustered rows)
and the merged per-cluster statistics. -/
structure RefRow where
  description : Option (List Char)
  correctiveAction : Option (List Char)
  totalHours : ℚ
  normDisc : List Char
  normCorr : List Char
  combinedKey : List Char
  clusterKey : Option (List Char)
  actualHist : Option ℚ
  occurrences : Option Nat
  fairQuote : Option ℚ
deriving DecidableEq

/-- The clusters built from a dataset's combined keys. -/
def clustersOf (records : List RawRecord) : List (List Char × List (List Char)) :=
  buildClusters (records.map combinedKeyOf)

/-- `df['Cluster Key']`: the representative of the record's combined key. -/
def rowClusterKey (records : List RawRecord) (r : RawRecord) : Option (List Char) :=
  key_to_rep (clustersOf records) (combinedKeyOf r)

/-- The records of a dataset grouped under cluster key `g`. -/
def clusterGroup (records : List RawRecord) (g : List Char) : List RawRecord :=
  records.filter (fun r' => decide (rowClusterKey records r' = some g))

/-- The groupby `mean` aggregate: arithmetic mean of Total Hours over the
cluster. -/
def clusterMean (records : List RawRecord) (g : List Char) : ℚ :=
  ((clusterGroup records g).map (fun r' => r'.totalHours)).sum /
    ((clusterGroup records g).length : ℚ)

/-- The groupby `count` aggregate: number of records in the cluster. -/
def clusterCount (records : List RawRecord) (g : List Char) : Nat :=
  (clusterGroup records g).length

/-- `df.groupby('Cluster Key')['Total Hours'].agg(['mean', 'count'])`: one
aggregate row (mean of Total Hours, record count) per distinct non-null
cluster key. -/
def aggOf (records : List RawRecord) : List (List Char × ℚ × Nat) :=
  (firstUniques [] (records.filterMap (fun r => rowClusterKey records r))).map
    (fun g => (g, clusterMean records g, clusterCount records g))

/-- `df.merge(hours, on='Cluster Key', how='left')` for one row: the
aggregate row joined on the record's cluster key (none for NaN keys). -/
def mergeStats (records : List RawRecord) (r : RawRecord) : Option (ℚ × Nat) :=
  match rowClusterKey records r with
  | none => none
  | some g => ((aggOf records).find? (fun e => decide (e.1 = g))).map (fun e => e.2)

/-- The fully-enriched reference table built from a dataset, one row per
record: normalized fields, combined key, cluster key, and merged statistics
with `Fair Quote (hrs)` the mean rounded to two decimals. -/
def tableRows (records : List RawRecord) : List RefRow :=
  records.map (fun r =>
    { description := r.description
      correctiveAction := r.correctiveAction
      totalHours := r.totalHours
      normDisc := normDiscOf r
      normCorr := normCorrOf r
      combinedKey := combinedKeyOf r
      clusterKey := rowClusterKey records r
      actualHist := (mergeStats records r).map (fun p => p.1)
      occurrences := (mergeStats records r).map (fun p => p.2)
      fairQuote := (mergeStats records r).map (fun p => round2 p.1) })

/-- The end-to-end example dataset of the specification: one scenario
occurring three times with hours 10, 12 and 14. -/
def exampleRecord (h : ℚ) : RawRecord :=
  ⟨some "Crack found in skin panel".data, some "Replaced panel".data, h⟩

def exampleRecords : List RawRecord :=
  [exampleRecord 10, exampleRecord 12, exampleRecord 14]

def exampleKey : List Char := combinedKeyOf (exampleRecord 10)

/-- The first row of the reference table built from the example dataset. -/
def exampleRow : RefRow :=
  (tableRows exampleRecords).get ⟨0, by decide⟩

/-- The submitted query's normalized discrepancy:
`normalize_text(discrepancy_input.replace("(FOR REFERENCE ONLY)", ""))`. -/
def normDiscIn (d : List Char) : List Char := normalize_text (stripMarker d)

/-- The submitted query's normalized corrective action. -/
def normCorrIn (c : List Char) : List Char := normalize_text c

/-- `combined_input = norm_disc + " | " + norm_corr`. -/
def combinedIn (d c : List Char) : List Char :=
  normDiscIn d ++ sepKey ++ normCorrIn c

/-- `total_similarity(row)`: mean of the discrepancy-vs-discrepancy and
corrective-vs-corrective sequence overlaps (the `Overlap` column). -/
def overlapOf (d c : List Char) (row : RefRow) : ℚ :=
  (semantic_overlap (normDiscIn d) row.normDisc +
    semantic_overlap (normCorrIn c) row.normCorr) / 2

/-- `exact = df[df['Combined Key'] == combined_input]`. -/
def exactRows (rows : List RefRow) (d c : List Char) : List RefRow :=
  rows.filter (fun row => decide (row.combinedKey = combinedIn d c))

/-- `approx = df[(df['Overlap'] >= 55) & (df['Combined Key'] != combined_input)]`. -/
def approxRows (rows : List RefRow) (d c : List Char) : List RefRow :=
  rows.filter (fun row =>
    decide (55 ≤ overlapOf d c row ∧ row.combinedKey ≠ combinedIn d c))

/-- The descending-overlap comparison used by
`sort_values(by='Overlap', ascending=False)`. -/
def overlapGE (d c : List Char) (a b : RefRow) : Prop :=
  overlapOf d c b ≤ overlapOf d c a

instance overlapGE_decRel (d c : List Char) : DecidableRel (overlapGE d c) :=
  fun a b => inferInstanceAs (Decidable (overlapOf d c b ≤ overlapOf d c a))

instance overlapGE_total (d c : List Char) : IsTotal RefRow (overlapGE d c) :=
  ⟨fun a b => (le_total (overlapOf d c b) (overlapOf d c a)).imp id id⟩

instance overlapGE_transitive (d c : List Char) : IsTrans RefRow (overlapGE d c) :=
  ⟨fun _ _ _ hab hbc => le_trans hbc hab⟩

/-- `top2 = approx.sort_values(by='Overlap', ascending=False).head(2)`. -/
def top2Rows (rows : List RefRow) (d c : List Char) : List RefRow :=
  ((approxRows rows d c).insertionSort (overlapGE d c)).take 2

/-- `closest = df[df['Overlap'] < 55].sort_values(by='Overlap', ascending=False).head(1)`. -/
def closestRows (rows : List RefRow) (d c : List Char) : List RefRow :=
  ((rows.filter (fun row => decide (overlapOf d c row < 55))).insertionSort
    (overlapGE d c)).take 1

inductive MatchTier where
  | exactT
  | approxT
  | weakT
  | noneT
deriving DecidableEq

/-- The outcome of the decision logic: which tier fired, with the rows the
fired branch displays. -/
inductive MatchResult where
  | exactM : List RefRow → MatchResult
  | approxM : List RefRow → MatchResult
  | weakM : List RefRow → MatchResult
  | noneM : MatchResult
deriving DecidableEq

def MatchResult.tier : MatchResult → MatchTier
  | .exactM _ => MatchTier.exactT
  | .approxM _ => MatchTier.approxT
  | .weakM _ => MatchTier.weakT
  | .noneM => MatchTier.noneT

/-- The decision-logic branch cascade:
`if not exact.empty: ... elif not top2.empty: ... elif not closest.empty: ...`. -/
def analyze (rows : List RefRow) (d c : List Char) : MatchResult :=
  if exactRows rows d c ≠ [] then MatchResult.exactM (exactRows rows d c)
  else if top2Rows rows d c ≠ [] then MatchResult.approxM (top2Rows rows d c)
  else if closestRows rows d c ≠ [] then MatchResult.weakM (closestRows rows d c)
  else MatchResult.noneM

/-- Each fired branch computes
`get_decision_conclusion(supplier_hours, branch.iloc[0]['Fair Quote (hrs)'])`. -/
def decisionOf (rows : List RefRow) (d c : List Char) (supplier : ℚ) : Option Decision :=
  match analyze rows d c with
  | .exactM rs => rs.head?.map (fun row => get_decision_conclusion supplier row.fairQuote)
  | .approxM rs => rs.head?.map (fun row => get_decision_conclusion supplier row.fairQuote)
  | .weakM rs => rs.head?.map (fun row => get_decision_conclusion supplier row.fairQuote)
  | .noneM => none

/-- Concrete query and reference row used to exercise the approximate tier. -/
def dQ : List Char := "ALPHA BRAVO".data

def cQ : List Char := "DELTA ECHO".data

def rowQ : RefRow :=
  ⟨none, none, 10, normDiscIn dQ, normCorrIn cQ, [], none, some 10, some 1, some 10⟩

theorem takeWhile_add_dropWhile_length (p : Char → Bool) (l : List Char) :
    (l.takeWhile p).length + (l.dropWhile p).length = l.length := by
  have := congrArg List.length (List.takeWhile_append_dropWhile p l)
  rw [List.length_append] at this
  exact this

theorem shortRun_length {l rest : List Char} (h : shortRun l = some rest) :
    rest.length + 1 ≤ l.length := by
  unfold shortRun at h
  split at h
  · simp only [Option.some.injEq] at h
    subst h
    have := takeWhile_add_dropWhile_length isDigitC l
    omega
  · simp at h

theorem sepTok_length {l rest : List Char} (h : sepTok l = some rest) :
    rest.length + 1 = l.length := by
  match l with
  | [] => exact absurd h (by simp [sepTok])
  | c :: cs =>
    simp only [sepTok] at h
    split at h
    · simp only [Option.some.injEq] at h
      subst h
      rfl
    · exact absurd h (by simp)

theorem yearRun_length {l rest : List Char} (h : yearRun l = some rest) :
    rest.length + 2 ≤ l.length := by
  unfold yearRun at h
  split at h
  · simp only [Option.some.injEq] at h
    subst h
    have := takeWhile_add_dropWhile_length isDigitC l
    omega
  · simp at h

theorem pStage2_length {l rest : List Char} (h : pStage2 l = some rest) :
    rest.length + 2 ≤ l.length := by
  unfold pStage2 at h
  rw [Option.bind_eq_some] at h
  obtain ⟨f, hf, h⟩ := h
  have := yearRun_length hf
  split at h
  · simp only [Option.some.injEq] at h
    subst h
    omega
  · simp at h

theorem pStage1_length {l rest : List Char} (h : pStage1 l = some rest) :
    rest.length + 4 ≤ l.length := by
  unfold pStage1 at h
  rw [Option.bind_eq_some] at h
  obtain ⟨b, hb, h⟩ := h
  rw [Option.bind_eq_some] at h
  obtain ⟨e, he, h⟩ := h
  have l1 := shortRun_length hb
  have l2 := sepTok_length he
  have l3 := pStage2_length h
  omega

theorem parseDate_length {l rest : List Char} (h : parseDate l = some rest) :
    rest.length < l.length := by
  unfold parseDate at h
  rw [Option.bind_eq_some] at h
  obtain ⟨a, ha, h⟩ := h
  rw [Option.bind_eq_some] at h
  obtain ⟨d, hd, h⟩ := h
  have l1 := shortRun_length ha
  have l2 := sepTok_length hd
  have l3 := pStage1_length h
  omega

theorem subDatesF_eq : ∀ n : ℕ, ∀ b : Bool, ∀ l : List Char,
    l.length ≤ n → subDatesF n b l = subDates b l := by
  intro n
  induction n using Nat.strong_induction_on with
  | _ n IH =>
    intro b l hl
    match n, l with
    | 0, l =>
      cases l with
      | nil => rfl
      | cons c cs => simp at hl
    | n + 1, [] =>
      rfl
    | n + 1, c :: cs =>
      simp only [List.length_cons] at hl
      have hcs : cs.length ≤ n := by omega
      cases b with
      | true =>
        show c :: subDatesF n (isWordChar c) cs = c :: subDatesF cs.length (isWordChar c) cs
        rw [IH n (Nat.lt_succ_self n) (isWordChar c) cs hcs,
          IH cs.length (Nat.lt_succ_of_le hcs) (isWordChar c) cs le_rfl]
      | false =>
        show (match parseDate (c :: cs) with
            | some rest => subDatesF n true rest
            | none => c :: subDatesF n (isWordChar c) cs) =
          (match parseDate (c :: cs) with
            | some rest => subDatesF cs.length true rest
            | none => c :: subDatesF cs.length (isWordChar c) cs)
        cases hp : parseDate (c :: cs) with
        | none =>
          show c :: subDatesF n (isWordChar c) cs = c :: subDatesF cs.length (isWordChar c) cs
          rw [IH n (Nat.lt_succ_self n) (isWordChar c) cs hcs,
            IH cs.length (Nat.lt_succ_of_le hcs) (isWordChar c) cs le_rfl]
        | some rest =>
          have hr : rest.length ≤ cs.length := by
            have := parseDate_length hp
            simp only [List.length_cons] at this
            omega
          show subDatesF n true rest = subDatesF cs.length true rest
          rw [IH n (Nat.lt_succ_self n) true rest (le_trans hr hcs),
            IH cs.length (Nat.lt_succ_of_le hcs) true rest hr]

theorem subDates_nil (b : Bool) : subDates b [] = [] := rfl

theorem subDates_cons_true (c : Char) (cs : List Char) :
    subDates true (c :: cs) = c :: subDates (isWordChar c) cs := rfl

theorem subDates_cons_false_some {c : Char} {cs rest : List Char}
    (h : parseDate (c :: cs) = some rest) :
    subDates false (c :: cs) = subDates true rest := by
  have hstep : subDates false (c :: cs) =
      match parseDate (c :: cs) with
      | some rest => subDatesF cs.length true rest
      | none => c :: subDatesF cs.length (isWordChar c) cs := rfl
  rw [hstep, h]
  exact subDatesF_eq cs.length true rest (by
    have := parseDate_length h
    simp at this
    omega)

theorem subDates_cons_false_none {c : Char} {cs : List Char}
    (h : parseDate (c :: cs) = none) :
    subDates false (c :: cs) = c :: subDates (isWordChar c) cs := by
  have hstep : subDates false (c :: cs) =
      match parseDate (c :: cs) with
      | some rest => subDatesF cs.length true rest
      | none => c :: subDatesF cs.length (isWordChar c) cs := rfl
  rw [hstep, h]
  rfl

theorem squashF_eq : ∀ n : ℕ, ∀ l : List Char,
    l.length ≤ n → squashF n l = squash l := by
  intro n
  induction n using Nat.strong_induction_on with
  | _ n IH =>
    intro l hl
    match n, l with
    | 0, l =>
      cases l with
      | nil => rfl
      | cons c cs => simp at hl
    | n + 1, [] => rfl
    | n + 1, c :: cs =>
      simp only [List.length_cons] at hl
      have hcs : cs.length ≤ n := by omega
      have hdw : (cs.dropWhile isWS).length ≤ cs.length :=
        (List.dropWhile_sublist isWS).length_le
      show (if isWS c then ' ' :: squashF n (cs.dropWhile isWS)
          else c :: squashF n cs) =
        (if isWS c then ' ' :: squashF cs.length (cs.dropWhile isWS)
          else c :: squashF cs.length cs)
      by_cases hc : isWS c
      · rw [if_pos hc, if_pos hc,
          IH n (Nat.lt_succ_self n) (cs.dropWhile isWS) (by omega),
          IH cs.length (Nat.lt_succ_of_le hcs) (cs.dropWhile isWS) (by omega)]
      · rw [if_neg hc, if_neg hc,
          IH n (Nat.lt_succ_self n) cs hcs,
          IH cs.length (Nat.lt_succ_of_le hcs) cs le_rfl]

theorem squash_nil : squash [] = [] := rfl

theorem squash_cons (c : Char) (cs : List Char) :
    squash (c :: cs) =
      if isWS c then ' ' :: squash (cs.dropWhile isWS) else c :: squash cs := by
  have hrhs : squash (c :: cs) =
      if isWS c then ' ' :: squashF cs.length (cs.dropWhile isWS)
      else c :: squashF cs.length cs := rfl
  rw [hrhs,
    squashF_eq cs.length (cs.dropWhile isWS) (List.dropWhile_sublist isWS).length_le,
    squashF_eq cs.length cs le_rfl]

theorem digit_word {c : Char} (h : isDigitC c = true) : isWordChar c = true := by
  unfold isDigitC at h
  unfold isWordChar
  rw [h]
  rfl

theorem sep_not_word {c : Char} (h : isSep c = true) : isWordChar c = false := by
  unfold isSep at h
  simp only [Bool.or_eq_true, decide_eq_true_eq] at h
  rcases h with h | h <;> subst h <;> decide

theorem sep_not_digit {c : Char} (h : isSep c = true) : isDigitC c = false := by
  unfold isSep at h
  simp only [Bool.or_eq_true, decide_eq_true_eq] at h
  rcases h with h | h <;> subst h <;> decide

theorem ws_not_word {c : Char} (h : isWS c = true) : isWordChar c = false := by
  unfold isWS at h
  simp only [Bool.or_eq_true, decide_eq_true_eq] at h
  rcases h with ((((h | h) | h) | h) | h) | h <;> subst h <;> decide

theorem ws_not_digit {c : Char} (h : isWS c = true) : isDigitC c = false := by
  unfold isWS at h
  simp only [Bool.or_eq_true, decide_eq_true_eq] at h
  rcases h with ((((h | h) | h) | h) | h) | h <;> subst h <;> decide

theorem not_word_not_digit {c : Char} (h : isWordChar c = false) : isDigitC c = false := by
  cases hd : isDigitC c with
  | false => rfl
  | true => rw [digit_word hd] at h; exact absurd h (by simp)

theorem upperChar_cases (c : Char) :
    upperChar c = c ∨ upperChar c ∈ "ABCDEFGHIJKLMNOPQRSTUVWXYZ".data := by
  unfold upperChar
  cases hf : upperMap.find? (fun p => p.1 == c) with
  | none => left; rfl
  | some p =>
    right
    have hmem := List.mem_of_find?_eq_some hf
    show p.2 ∈ _
    have hall : ∀ q ∈ upperMap, q.2 ∈ "ABCDEFGHIJKLMNOPQRSTUVWXYZ".data := by decide
    exact hall p hmem

theorem upperChar_idem (c : Char) : upperChar (upperChar c) = upperChar c := by
  rcases upperChar_cases c with h | h
  · rw [h, h]
  · have hfix : ∀ d, d ∈ "ABCDEFGHIJKLMNOPQRSTUVWXYZ".data → upperChar d = d := by decide
    rw [hfix _ h]

theorem shortRun_nil : shortRun [] = none := rfl

theorem yearRun_nil : yearRun [] = none := rfl

theorem sepTok_nil : sepTok [] = none := rfl

theorem shortRun_none_of_head {c : Char} {cs : List Char} (h : isDigitC c = false) :
    shortRun (c :: cs) = none := by
  unfold shortRun
  rw [List.takeWhile_cons, if_neg (by simp [h])]

theorem yearRun_none_of_head {c : Char} {cs : List Char} (h : isDigitC c = false) :
    yearRun (c :: cs) = none := by
  unfold yearRun
  rw [List.takeWhile_cons, if_neg (by simp [h])]

theorem parseDate_none_of_head {c : Char} {cs : List Char} (h : isDigitC c = false) :
    parseDate (c :: cs) = none := by
  unfold parseDate
  rw [shortRun_none_of_head h]
  rfl

theorem pStage1_none_of_head {c : Char} {cs : List Char} (h : isDigitC c = false) :
    pStage1 (c :: cs) = none := by
  unfold pStage1
  rw [shortRun_none_of_head h]
  rfl

theorem pStage2_none_of_head {c : Char} {cs : List Char} (h : isDigitC c = false) :
    pStage2 (c :: cs) = none := by
  unfold pStage2
  rw [yearRun_none_of_head h]
  rfl

theorem shortRun_some_head {l a : List Char} (h : shortRun l = some a) :
    ∃ c cs, l = c :: cs ∧ isDigitC c = true := by
  match l with
  | [] => rw [shortRun_nil] at h; exact absurd h (by simp)
  | c :: cs =>
    cases hd : isDigitC c with
    | false => rw [shortRun_none_of_head hd] at h; exact absurd h (by simp)
    | true => exact ⟨c, cs, rfl, hd⟩

theorem yearRun_some_head {l a : List Char} (h : yearRun l = some a) :
    ∃ c cs, l = c :: cs ∧ isDigitC c = true := by
  match l with
  | [] => rw [yearRun_nil] at h; exact absurd h (by simp)
  | c :: cs =>
    cases hd : isDigitC c with
    | false => rw [yearRun_none_of_head hd] at h; exact absurd h (by simp)
    | true => exact ⟨c, cs, rfl, hd⟩

theorem pStage1_some_head {l a : List Char} (h : pStage1 l = some a) :
    ∃ c cs, l = c :: cs ∧ isDigitC c = true := by
  unfold pStage1 at h
  rw [Option.bind_eq_some] at h
  obtain ⟨b, hb, _⟩ := h
  exact shortRun_some_head hb

theorem pStage2_some_head {l a : List Char} (h : pStage2 l = some a) :
    ∃ c cs, l = c :: cs ∧ isDigitC c = true := by
  unfold pStage2 at h
  rw [Option.bind_eq_some] at h
  obtain ⟨f, hf, _⟩ := h
  exact yearRun_some_head hf

theorem parseDate_some_head {l a : List Char} (h : parseDate l = some a) :
    ∃ c cs, l = c :: cs ∧ isDigitC c = true := by
  unfold parseDate at h
  rw [Option.bind_eq_some] at h
  obtain ⟨b, hb, _⟩ := h
  exact shortRun_some_head hb

theorem parseDate_boundary {l rest : List Char} (h : parseDate l = some rest) :
    boundaryOK rest = true := by
  unfold parseDate at h
  rw [Option.bind_eq_some] at h
  obtain ⟨a, _, h⟩ := h
  rw [Option.bind_eq_some] at h
  obtain ⟨d, _, h⟩ := h
  unfold pStage1 at h
  rw [Option.bind_eq_some] at h
  obtain ⟨b, _, h⟩ := h
  rw [Option.bind_eq_some] at h
  obtain ⟨e, _, h⟩ := h
  unfold pStage2 at h
  rw [Option.bind_eq_some] at h
  obtain ⟨f, _, h⟩ := h
  split at h
  · rename_i hb
    simp only [Option.some.injEq] at h
    subst h
    exact hb
  · exact absurd h (by simp)

theorem subDates_true_takeWhile (l : List Char) :
    (subDates true l).takeWhile isDigitC = l.takeWhile isDigitC := by
  induction l with
  | nil => rfl
  | cons c cs IH =>
    rw [subDates_cons_true]
    cases hd : isDigitC c with
    | true =>
      rw [digit_word hd]
      rw [List.takeWhile_cons, List.takeWhile_cons, if_pos (by simp [hd]), if_pos (by simp [hd]), IH]
    | false =>
      rw [List.takeWhile_cons, List.takeWhile_cons, if_neg (by simp [hd]), if_neg (by simp [hd])]

theorem subDates_true_dropWhile (l : List Char) :
    (subDates true l).dropWhile isDigitC = subDates true (l.dropWhile isDigitC) := by
  induction l with
  | nil => rfl
  | cons c cs IH =>
    rw [subDates_cons_true]
    cases hd : isDigitC c with
    | true =>
      rw [digit_word hd]
      rw [List.dropWhile_cons, List.dropWhile_cons, if_pos (by simp [hd]), if_pos (by simp [hd]), IH]
    | false =>
      rw [List.dropWhile_cons, List.dropWhile_cons, if_neg (by simp [hd]), if_neg (by simp [hd]),
        subDates_cons_true]

theorem yearRun_subDates_true {l f : List Char} (h : yearRun (subDates true l) = some f) :
    yearRun l = some (l.dropWhile isDigitC) ∧ f = subDates true (l.dropWhile isDigitC) := by
  unfold yearRun at h ⊢
  rw [subDates_true_takeWhile, subDates_true_dropWhile] at h
  split at h
  · rename_i hcond
    rw [if_pos hcond]
    simp only [Option.some.injEq] at h
    exact ⟨rfl, h.symm⟩
  · exact absurd h (by simp)

theorem shortRun_subDates_true {l f : List Char} (h : shortRun (subDates true l) = some f) :
    shortRun l = some (l.dropWhile isDigitC) ∧ f = subDates true (l.dropWhile isDigitC) := by
  unfold shortRun at h ⊢
  rw [subDates_true_takeWhile, subDates_true_dropWhile] at h
  split at h
  · rename_i hcond
    rw [if_pos hcond]
    simp only [Option.some.injEq] at h
    exact ⟨rfl, h.symm⟩
  · exact absurd h (by simp)

theorem boundaryOK_subDates_true {l : List Char} (h : boundaryOK (subDates true l) = true) :
    boundaryOK l = true := by
  cases l with
  | nil => rfl
  | cons y ys =>
    rw [subDates_cons_true] at h
    exact h

theorem matchTrans2 {l r : List Char} (h : pStage2 (subDates true l) = some r) :
    ∃ r', pStage2 l = some r' := by
  unfold pStage2 at h ⊢
  rw [Option.bind_eq_some] at h
  obtain ⟨f, hf, hite⟩ := h
  obtain ⟨h1, hfval⟩ := yearRun_subDates_true hf
  subst hfval
  split at hite
  · rename_i hb
    have hbd : boundaryOK (l.dropWhile isDigitC) = true := boundaryOK_subDates_true hb
    rw [h1]
    exact ⟨_, by rw [Option.some_bind, if_pos hbd]⟩
  · exact absurd hite (by simp)

theorem matchTrans2F {l r : List Char} (h : pStage2 (subDates false l) = some r) :
    ∃ r', pStage2 l = some r' := by
  match l with
  | [] => exact ⟨r, h⟩
  | c :: cs =>
    cases hp : parseDate (c :: cs) with
    | some rest =>
      rw [subDates_cons_false_some hp] at h
      obtain ⟨r', hr'⟩ := matchTrans2 h
      obtain ⟨z, zs, hz, hzd⟩ := pStage2_some_head hr'
      have hb := parseDate_boundary hp
      rw [hz] at hb
      have hzw : isWordChar z = false := by
        simpa [boundaryOK] using hb
      rw [not_word_not_digit hzw] at hzd
      exact absurd hzd (by simp)
    | none =>
      rw [subDates_cons_false_none hp] at h
      cases hd : isDigitC c with
      | false =>
        rw [pStage2_none_of_head hd] at h
        exact absurd h (by simp)
      | true =>
        have hcons : c :: subDates (isWordChar c) cs = subDates true (c :: cs) := by
          rw [subDates_cons_true]
        rw [hcons] at h
        exact matchTrans2 h

theorem matchTrans1 {l r : List Char} (h : pStage1 (subDates true l) = some r) :
    ∃ r', pStage1 l = some r' := by
  unfold pStage1 at h ⊢
  rw [Option.bind_eq_some] at h
  obtain ⟨b, hb, h⟩ := h
  obtain ⟨h1, hbval⟩ := shortRun_subDates_true hb
  subst hbval
  rw [Option.bind_eq_some] at h
  obtain ⟨e, he, h⟩ := h
  cases hX : l.dropWhile isDigitC with
  | nil =>
    rw [hX, subDates_nil, sepTok_nil] at he
    exact absurd he (by simp)
  | cons y ys =>
    rw [hX, subDates_cons_true] at he
    simp only [sepTok] at he
    split at he
    · rename_i hsep
      simp only [Option.some.injEq] at he
      subst he
      rw [sep_not_word hsep] at h
      obtain ⟨r2, hr2⟩ := matchTrans2F h
      refine ⟨r2, ?_⟩
      rw [h1, Option.some_bind, hX]
      simp only [sepTok]
      rw [if_pos hsep, Option.some_bind]
      exact hr2
    · exact absurd he (by simp)

theorem matchTrans1F {l r : List Char} (h : pStage1 (subDates false l) = some r) :
    ∃ r', pStage1 l = some r' := by
  match l with
  | [] => exact ⟨r, h⟩
  | c :: cs =>
    cases hp : parseDate (c :: cs) with
    | some rest =>
      rw [subDates_cons_false_some hp] at h
      obtain ⟨r', hr'⟩ := matchTrans1 h
      obtain ⟨z, zs, hz, hzd⟩ := pStage1_some_head hr'
      have hb := parseDate_boundary hp
      rw [hz] at hb
      have hzw : isWordChar z = false := by
        simpa [boundaryOK] using hb
      rw [not_word_not_digit hzw] at hzd
      exact absurd hzd (by simp)
    | none =>
      rw [subDates_cons_false_none hp] at h
      cases hd : isDigitC c with
      | false =>
        rw [pStage1_none_of_head hd] at h
        exact absurd h (by simp)
      | true =>
        have hcons : c :: subDates (isWordChar c) cs = subDates true (c :: cs) := by
          rw [subDates_cons_true]
        rw [hcons] at h
        exact matchTrans1 h

theorem matchTrans0 {l r : List Char} (h : parseDate (subDates true l) = some r) :
    ∃ r', parseDate l = some r' := by
  unfold parseDate at h ⊢
  rw [Option.bind_eq_some] at h
  obtain ⟨a, ha, h⟩ := h
  obtain ⟨h1, haval⟩ := shortRun_subDates_true ha
  subst haval
  rw [Option.bind_eq_some] at h
  obtain ⟨d, hd2, h⟩ := h
  cases hX : l.dropWhile isDigitC with
  | nil =>
    rw [hX, subDates_nil, sepTok_nil] at hd2
    exact absurd hd2 (by simp)
  | cons y ys =>
    rw [hX, subDates_cons_true] at hd2
    simp only [sepTok] at hd2
    split at hd2
    · rename_i hsep
      simp only [Option.some.injEq] at hd2
      subst hd2
      rw [sep_not_word hsep] at h
      obtain ⟨r2, hr2⟩ := matchTrans1F h
      refine ⟨r2, ?_⟩
      rw [h1, Option.some_bind, hX]
      simp only [sepTok]
      rw [if_pos hsep, Option.some_bind]
      exact hr2
    · exact absurd hd2 (by simp)

theorem parseDate_out_none {c : Char} {cs : List Char} (h : parseDate (c :: cs) = none) :
    parseDate (c :: subDates (isWordChar c) cs) = none := by
  cases hd : isDigitC c with
  | false => exact parseDate_none_of_head hd
  | true =>
    have hcons : c :: subDates (isWordChar c) cs = subDates true (c :: cs) := by
      rw [subDates_cons_true]
    rw [hcons]
    cases hp : parseDate (subDates true (c :: cs)) with
    | none => rfl
    | some r =>
      obtain ⟨r', hr'⟩ := matchTrans0 hp
      rw [hr'] at h
      exact absurd h (by simp)

theorem parseDate_nil : parseDate [] = none := rfl

theorem subDates_id_of_noDate : ∀ {l : List Char} {b : Bool},
    noDateAt b l = true → subDates b l = l := by
  intro l
  induction l with
  | nil => intro b _; rfl
  | cons c cs IH =>
    intro b h
    simp only [noDateAt, Bool.and_eq_true, Bool.or_eq_true] at h
    obtain ⟨h1, h2⟩ := h
    cases b with
    | true => rw [subDates_cons_true, IH h2]
    | false =>
      have hp : parseDate (c :: cs) = none := by
        cases hpp : parseDate (c :: cs) with
        | none => rfl
        | some r =>
          rcases h1 with h1 | h1
          · exact absurd h1 (by simp)
          · rw [hpp] at h1
            exact absurd h1 (by simp)
      rw [subDates_cons_false_none hp, IH h2]

theorem noDateAt_of_parse_none {l : List Char} (h : noDateAt true l = true)
    (hp : parseDate l = none) : noDateAt false l = true := by
  cases l with
  | nil => rfl
  | cons c cs =>
    simp only [noDateAt, Bool.and_eq_true, Bool.or_eq_true] at h ⊢
    exact ⟨Or.inr (by simp [hp]), h.2⟩

theorem noDate_subDates_aux : ∀ n : ℕ, ∀ b : Bool, ∀ l : List Char,
    l.length ≤ n → noDateAt b (subDates b l) = true := by
  intro n
  induction n using Nat.strong_induction_on with
  | _ n IH =>
    intro b l hl
    match n, l with
    | _, [] => rw [subDates_nil]; rfl
    | 0, c :: cs => simp at hl
    | n + 1, c :: cs =>
      simp only [List.length_cons] at hl
      have hcs : cs.length ≤ n := by omega
      cases b with
      | true =>
        rw [subDates_cons_true]
        simp only [noDateAt, Bool.true_or, Bool.true_and]
        exact IH n (Nat.lt_succ_self n) (isWordChar c) cs hcs
      | false =>
        cases hp : parseDate (c :: cs) with
        | none =>
          rw [subDates_cons_false_none hp]
          simp only [noDateAt, Bool.and_eq_true, Bool.or_eq_true]
          refine ⟨Or.inr ?_, IH n (Nat.lt_succ_self n) (isWordChar c) cs hcs⟩
          rw [parseDate_out_none hp]
          rfl
        | some rest =>
          rw [subDates_cons_false_some hp]
          have hrl : rest.length ≤ n := by
            have := parseDate_length hp
            simp only [List.length_cons] at this
            omega
          have htrue : noDateAt true (subDates true rest) = true :=
            IH n (Nat.lt_succ_self n) true rest hrl
          apply noDateAt_of_parse_none htrue
          have hb := parseDate_boundary hp
          cases rest with
          | nil => rw [subDates_nil]; exact parseDate_nil
          | cons y ys =>
            rw [subDates_cons_true]
            apply parseDate_none_of_head
            apply not_word_not_digit
            simpa [boundaryOK] using hb

theorem noDate_subDates (b : Bool) (l : List Char) :
    noDateAt b (subDates b l) = true :=
  noDate_subDates_aux l.length b l le_rfl

theorem shortRun_sublist {l a : List Char} (h : shortRun l = some a) : a.Sublist l := by
  unfold shortRun at h
  split at h
  · simp only [Option.some.injEq] at h
    subst h
    exact List.dropWhile_sublist isDigitC
  · exact absurd h (by simp)

theorem yearRun_sublist {l a : List Char} (h : yearRun l = some a) : a.Sublist l := by
  unfold yearRun at h
  split at h
  · simp only [Option.some.injEq] at h
    subst h
    exact List.dropWhile_sublist isDigitC
  · exact absurd h (by simp)

theorem sepTok_sublist {l a : List Char} (h : sepTok l = some a) : a.Sublist l := by
  match l with
  | [] => exact absurd h (by simp [sepTok])
  | c :: cs =>
    simp only [sepTok] at h
    split at h
    · simp only [Option.some.injEq] at h
      subst h
      exact (List.sublist_cons_self c cs)
    · exact absurd h (by simp)

theorem parseDate_sublist {l rest : List Char} (h : parseDate l = some rest) :
    rest.Sublist l := by
  unfold parseDate at h
  rw [Option.bind_eq_some] at h
  obtain ⟨a, ha, h⟩ := h
  rw [Option.bind_eq_some] at h
  obtain ⟨d, hd, h⟩ := h
  unfold pStage1 at h
  rw [Option.bind_eq_some] at h
  obtain ⟨b, hb, h⟩ := h
  rw [Option.bind_eq_some] at h
  obtain ⟨e, he, h⟩ := h
  unfold pStage2 at h
  rw [Option.bind_eq_some] at h
  obtain ⟨f, hf, h⟩ := h
  have hfr : rest = f := by
    split at h
    · simpa using h.symm
    · exact absurd h (by simp)
  subst hfr
  exact ((((yearRun_sublist hf).trans (sepTok_sublist he)).trans
    (shortRun_sublist hb)).trans (sepTok_sublist hd)).trans (shortRun_sublist ha)

theorem mem_subDates_aux : ∀ n : ℕ, ∀ b : Bool, ∀ l : List Char, ∀ x : Char,
    l.length ≤ n → x ∈ subDates b l → x ∈ l := by
  intro n
  induction n using Nat.strong_induction_on with
  | _ n IH =>
    intro b l x hl hx
    match n, l with
    | _, [] => rw [subDates_nil] at hx; exact hx
    | 0, c :: cs => simp at hl
    | n + 1, c :: cs =>
      simp only [List.length_cons] at hl
      have hcs : cs.length ≤ n := by omega
      cases b with
      | true =>
        rw [subDates_cons_true] at hx
        rcases List.mem_cons.mp hx with hx | hx
        · exact hx ▸ List.mem_cons_self c cs
        · exact List.mem_cons_of_mem c (IH n (Nat.lt_succ_self n) (isWordChar c) cs x hcs hx)
      | false =>
        cases hp : parseDate (c :: cs) with
        | none =>
          rw [subDates_cons_false_none hp] at hx
          rcases List.mem_cons.mp hx with hx | hx
          · exact hx ▸ List.mem_cons_self c cs
          · exact List.mem_cons_of_mem c (IH n (Nat.lt_succ_self n) (isWordChar c) cs x hcs hx)
        | some rest =>
          rw [subDates_cons_false_some hp] at hx
          have hrl : rest.length ≤ n := by
            have := parseDate_length hp
            simp only [List.length_cons] at this
            omega
          have := IH n (Nat.lt_succ_self n) true rest x hrl hx
          exact (parseDate_sublist hp).mem this

theorem mem_subDates {b : Bool} {l : List Char} {x : Char}
    (hx : x ∈ subDates b l) : x ∈ l :=
  mem_subDates_aux l.length b l x le_rfl hx

theorem digit_not_ws {c : Char} (h : isDigitC c = true) : isWS c = false := by
  cases hw : isWS c with
  | false => rfl
  | true => rw [ws_not_digit hw] at h; exact absurd h (by simp)

theorem ws_not_sep {c : Char} (h : isWS c = true) : isSep c = false := by
  unfold isWS at h
  simp only [Bool.or_eq_true, decide_eq_true_eq] at h
  rcases h with ((((h | h) | h) | h) | h) | h <;> subst h <;> decide

theorem chunk_takeWhile_digit : ∀ l : List Char,
    (l.takeWhile nonWS).takeWhile isDigitC = l.takeWhile isDigitC := by
  intro l
  induction l with
  | nil => rfl
  | cons c cs IH =>
    cases hd : isDigitC c with
    | true =>
      have hws : nonWS c = true := by simp [nonWS, digit_not_ws hd]
      rw [List.takeWhile_cons_of_pos hws, List.takeWhile_cons_of_pos hd,
        List.takeWhile_cons_of_pos hd, IH]
    | false =>
      cases hws : isWS c with
      | true =>
        rw [List.takeWhile_cons_of_neg (by simp [nonWS, hws]),
          List.takeWhile_cons_of_neg (by simp [hd])]
        rfl
      | false =>
        rw [List.takeWhile_cons_of_pos (by simp [nonWS, hws]),
          List.takeWhile_cons_of_neg (by simp [hd]),
          List.takeWhile_cons_of_neg (by simp [hd])]

theorem chunk_dropWhile_digit : ∀ l : List Char,
    (l.takeWhile nonWS).dropWhile isDigitC = (l.dropWhile isDigitC).takeWhile nonWS := by
  intro l
  induction l with
  | nil => rfl
  | cons c cs IH =>
    cases hd : isDigitC c with
    | true =>
      have hws : nonWS c = true := by simp [nonWS, digit_not_ws hd]
      rw [List.takeWhile_cons_of_pos hws, List.dropWhile_cons_of_pos hd,
        List.dropWhile_cons_of_pos hd, IH]
    | false =>
      cases hws : isWS c with
      | true =>
        rw [List.takeWhile_cons_of_neg (by simp [nonWS, hws]),
          List.dropWhile_cons_of_neg (by simp [hd]),
          List.takeWhile_cons_of_neg (by simp [nonWS, hws])]
        rfl
      | false =>
        rw [List.takeWhile_cons_of_pos (by simp [nonWS, hws]),
          List.dropWhile_cons_of_neg (by simp [hd]),
          List.dropWhile_cons_of_neg (by simp [hd]),
          List.takeWhile_cons_of_pos (by simp [nonWS, hws])]

theorem boundary_chunk (l : List Char) :
    boundaryOK (l.takeWhile nonWS) = boundaryOK l := by
  cases l with
  | nil => rfl
  | cons c cs =>
    cases hws : isWS c with
    | true =>
      rw [List.takeWhile_cons_of_neg (by simp [nonWS, hws])]
      show true = !isWordChar c
      rw [ws_not_word hws]
      rfl
    | false =>
      rw [List.takeWhile_cons_of_pos (by simp [nonWS, hws])]
      rfl

theorem chunk_pStage2 (l : List Char) :
    (pStage2 (l.takeWhile nonWS)).isSome = (pStage2 l).isSome := by
  unfold pStage2 yearRun
  rw [chunk_takeWhile_digit, chunk_dropWhile_digit]
  by_cases hc : 2 ≤ (l.takeWhile isDigitC).length ∧ (l.takeWhile isDigitC).length ≤ 4
  · rw [if_pos hc, if_pos hc]
    simp only [Option.some_bind]
    rw [boundary_chunk (l.dropWhile isDigitC)]
    cases hB : boundaryOK (l.dropWhile isDigitC) <;> simp [hB]
  · rw [if_neg hc, if_neg hc]

theorem chunk_pStage1 (l : List Char) :
    (pStage1 (l.takeWhile nonWS)).isSome = (pStage1 l).isSome := by
  unfold pStage1 shortRun
  rw [chunk_takeWhile_digit, chunk_dropWhile_digit]
  by_cases hc : (l.takeWhile isDigitC).length = 1 ∨ (l.takeWhile isDigitC).length = 2
  · rw [if_pos hc, if_pos hc]
    simp only [Option.some_bind]
    cases hX : l.dropWhile isDigitC with
    | nil => rfl
    | cons y ys =>
      cases hws : isWS y with
      | true =>
        have hsn : sepTok (y :: ys) = none := by
          simp only [sepTok]
          rw [if_neg (by simp [ws_not_sep hws])]
        rw [List.takeWhile_cons_of_neg (by simp [nonWS, hws]), sepTok_nil, hsn]
      | false =>
        rw [List.takeWhile_cons_of_pos (by simp [nonWS, hws])]
        simp only [sepTok]
        by_cases hs : isSep y = true
        · rw [if_pos hs, if_pos hs]
          simp only [Option.some_bind]
          exact chunk_pStage2 ys
        · rw [if_neg hs, if_neg hs]
  · rw [if_neg hc, if_neg hc]

theorem chunk_parseDate (l : List Char) :
    (parseDate (l.takeWhile nonWS)).isSome = (parseDate l).isSome := by
  unfold parseDate shortRun
  rw [chunk_takeWhile_digit, chunk_dropWhile_digit]
  by_cases hc : (l.takeWhile isDigitC).length = 1 ∨ (l.takeWhile isDigitC).length = 2
  · rw [if_pos hc, if_pos hc]
    simp only [Option.some_bind]
    cases hX : l.dropWhile isDigitC with
    | nil => rfl
    | cons y ys =>
      cases hws : isWS y with
      | true =>
        have hsn : sepTok (y :: ys) = none := by
          simp only [sepTok]
          rw [if_neg (by simp [ws_not_sep hws])]
        rw [List.takeWhile_cons_of_neg (by simp [nonWS, hws]), sepTok_nil, hsn]
      | false =>
        rw [List.takeWhile_cons_of_pos (by simp [nonWS, hws])]
        simp only [sepTok]
        by_cases hs : isSep y = true
        · rw [if_pos hs, if_pos hs]
          simp only [Option.some_bind]
          exact chunk_pStage1 ys
        · rw [if_neg hs, if_neg hs]
  · rw [if_neg hc, if_neg hc]

theorem mem_takeWhile_pred {x : Char} {l : List Char} {p : Char → Bool}
    (hx : x ∈ l.takeWhile p) : p x = true := by
  induction l with
  | nil => exact absurd hx (by simp)
  | cons c cs IH =>
    cases hc : p c with
    | true =>
      rw [List.takeWhile_cons_of_pos hc] at hx
      rcases List.mem_cons.mp hx with hx | hx
      · exact hx ▸ hc
      · exact IH hx
    | false =>
      rw [List.takeWhile_cons_of_neg (by simp [hc])] at hx
      exact absurd hx (by simp)

theorem squash_chunk : ∀ l : List Char,
    (squash l).takeWhile nonWS = l.takeWhile nonWS := by
  intro l
  induction l with
  | nil => rfl
  | cons c cs IH =>
    cases hws : isWS c with
    | true =>
      rw [squash_cons, if_pos hws, List.takeWhile_cons_of_neg (by decide),
        List.takeWhile_cons_of_neg (by simp [nonWS, hws])]
    | false =>
      rw [squash_cons, if_neg (by simp [hws]),
        List.takeWhile_cons_of_pos (by simp [nonWS, hws]),
        List.takeWhile_cons_of_pos (by simp [nonWS, hws]), IH]

theorem parse_isSome_congr {u v : List Char}
    (h : u.takeWhile nonWS = v.takeWhile nonWS) :
    (parseDate u).isSome = (parseDate v).isSome := by
  rw [← chunk_parseDate u, ← chunk_parseDate v, h]

theorem noDate_dropWhileWS : ∀ l : List Char,
    noDateAt false l = true → noDateAt false (l.dropWhile isWS) = true := by
  intro l
  induction l with
  | nil => intro h; exact h
  | cons c cs IH =>
    intro h
    cases hws : isWS c with
    | true =>
      rw [List.dropWhile_cons_of_pos hws]
      simp only [noDateAt, Bool.and_eq_true, Bool.or_eq_true] at h
      obtain ⟨_, h2⟩ := h
      rw [ws_not_word hws] at h2
      exact IH h2
    | false =>
      rw [List.dropWhile_cons_of_neg (by simp [hws])]
      exact h

theorem noDate_squash_aux : ∀ n : ℕ, ∀ b : Bool, ∀ l : List Char,
    l.length ≤ n → noDateAt b l = true → noDateAt b (squash l) = true := by
  intro n
  induction n using Nat.strong_induction_on with
  | _ n IH =>
    intro b l hl h
    match n, l with
    | _, [] => rw [squash_nil]; rfl
    | 0, c :: cs => simp at hl
    | n + 1, c :: cs =>
      simp only [List.length_cons] at hl
      have hcs : cs.length ≤ n := by omega
      simp only [noDateAt, Bool.and_eq_true, Bool.or_eq_true] at h
      obtain ⟨h1, h2⟩ := h
      cases hws : isWS c with
      | true =>
        rw [squash_cons, if_pos hws]
        simp only [noDateAt, Bool.and_eq_true, Bool.or_eq_true]
        refine ⟨Or.inr ?_, ?_⟩
        · rw [parseDate_none_of_head (c := ' ') (by decide)]
          rfl
        · have hw : isWordChar ' ' = false := by decide
          rw [hw]
          rw [ws_not_word hws] at h2
          have h3 := noDate_dropWhileWS cs h2
          have hlen : (cs.dropWhile isWS).length ≤ n :=
            le_trans (List.dropWhile_sublist isWS).length_le hcs
          exact IH n (Nat.lt_succ_self n) false (cs.dropWhile isWS) hlen h3
      | false =>
        rw [squash_cons, if_neg (by simp [hws])]
        simp only [noDateAt, Bool.and_eq_true, Bool.or_eq_true]
        refine ⟨?_, IH n (Nat.lt_succ_self n) (isWordChar c) cs hcs h2⟩
        rcases h1 with h1 | h1
        · exact Or.inl h1
        · right
          have hchunk : (c :: squash cs).takeWhile nonWS = (c :: cs).takeWhile nonWS := by
            rw [List.takeWhile_cons_of_pos (by simp [nonWS, hws]),
              List.takeWhile_cons_of_pos (by simp [nonWS, hws]), squash_chunk]
          rw [parse_isSome_congr hchunk]
          exact h1

theorem noDate_squash {b : Bool} {l : List Char} (h : noDateAt b l = true) :
    noDateAt b (squash l) = true :=
  noDate_squash_aux l.length b l le_rfl h

theorem appChunk_ws : ∀ v w : List Char, (∀ x ∈ w, isWS x = true) →
    (v ++ w).takeWhile nonWS = v.takeWhile nonWS := by
  intro v w hw
  induction v with
  | nil =>
    simp only [List.nil_append, List.takeWhile_nil]
    cases w with
    | nil => rfl
    | cons x xs =>
      rw [List.takeWhile_cons_of_neg]
      simp [nonWS, hw x (List.mem_cons_self x xs)]
  | cons c cs IH =>
    rw [List.cons_append]
    cases hws : isWS c with
    | true =>
      rw [List.takeWhile_cons_of_neg (by simp [nonWS, hws]),
        List.takeWhile_cons_of_neg (by simp [nonWS, hws])]
    | false =>
      rw [List.takeWhile_cons_of_pos (by simp [nonWS, hws]),
        List.takeWhile_cons_of_pos (by simp [nonWS, hws]), IH]

theorem noDate_append_ws : ∀ v : List Char, ∀ b : Bool, ∀ w : List Char,
    (∀ x ∈ w, isWS x = true) → noDateAt b (v ++ w) = true → noDateAt b v = true := by
  intro v
  induction v with
  | nil => intro b w _ _; rfl
  | cons c cs IH =>
    intro b w hw h
    rw [List.cons_append] at h
    simp only [noDateAt, Bool.and_eq_true, Bool.or_eq_true] at h ⊢
    obtain ⟨h1, h2⟩ := h
    refine ⟨?_, IH (isWordChar c) w hw h2⟩
    rcases h1 with h1 | h1
    · exact Or.inl h1
    · right
      have hchunk : (c :: cs).takeWhile nonWS = (c :: (cs ++ w)).takeWhile nonWS := by
        have := appChunk_ws (c :: cs) w hw
        rw [List.cons_append] at this
        exact this.symm
      rw [parse_isSome_congr hchunk]
      exact h1

theorem trimR_decomp (l : List Char) :
    l = trimR l ++ (l.reverse.takeWhile isWS).reverse ∧
      ∀ x ∈ (l.reverse.takeWhile isWS).reverse, isWS x = true := by
  constructor
  · have h1 : l.reverse = l.reverse.takeWhile isWS ++ l.reverse.dropWhile isWS :=
      (List.takeWhile_append_dropWhile isWS l.reverse).symm
    have h2 := congrArg List.reverse h1
    rw [List.reverse_reverse, List.reverse_append] at h2
    exact h2
  · intro x hx
    rw [List.mem_reverse] at hx
    exact mem_takeWhile_pred hx

theorem noDate_trimR {b : Bool} {l : List Char} (h : noDateAt b l = true) :
    noDateAt b (trimR l) = true := by
  obtain ⟨hdec, hws⟩ := trimR_decomp l
  rw [hdec] at h
  exact noDate_append_ws (trimR l) b _ hws h

theorem headNotWS_dropWhileWS : ∀ l : List Char, headNotWS (l.dropWhile isWS) = true := by
  intro l
  induction l with
  | nil => rfl
  | cons c cs IH =>
    cases hws : isWS c with
    | true => rw [List.dropWhile_cons_of_pos hws]; exact IH
    | false =>
      rw [List.dropWhile_cons_of_neg (by simp [hws])]
      show (!isWS c) = true
      rw [hws]
      rfl

theorem squash_headNotWS {l : List Char} (h : headNotWS l = true) :
    headNotWS (squash l) = true := by
  cases l with
  | nil => rw [squash_nil]; rfl
  | cons c cs =>
    have hws : isWS c = false := by
      by_contra hcon
      simp only [Bool.not_eq_false] at hcon
      rw [show headNotWS (c :: cs) = !isWS c from rfl, hcon] at h
      exact absurd h (by simp)
    rw [squash_cons, if_neg (by simp [hws])]
    show (!isWS c) = true
    rw [hws]
    rfl

theorem niceWS_tail {c : Char} {cs : List Char} (h : niceWS (c :: cs) = true) :
    niceWS cs = true := by
  simp only [niceWS, Bool.and_eq_true] at h
  exact h.2

theorem niceWS_squash_aux : ∀ n : ℕ, ∀ l : List Char,
    l.length ≤ n → niceWS (squash l) = true := by
  intro n
  induction n using Nat.strong_induction_on with
  | _ n IH =>
    intro l hl
    match n, l with
    | _, [] => rw [squash_nil]; rfl
    | 0, c :: cs => simp at hl
    | n + 1, c :: cs =>
      simp only [List.length_cons] at hl
      have hcs : cs.length ≤ n := by omega
      cases hws : isWS c with
      | true =>
        rw [squash_cons, if_pos hws]
        simp only [niceWS, Bool.and_eq_true, Bool.or_eq_true]
        refine ⟨Or.inr ?_, ?_⟩
        · exact And.intro (by decide) (squash_headNotWS (headNotWS_dropWhileWS cs))
        · have hlen : (cs.dropWhile isWS).length ≤ n :=
            le_trans (List.dropWhile_sublist isWS).length_le hcs
          exact IH n (Nat.lt_succ_self n) (cs.dropWhile isWS) hlen
      | false =>
        rw [squash_cons, if_neg (by simp [hws])]
        simp only [niceWS, Bool.and_eq_true, Bool.or_eq_true]
        refine ⟨Or.inl (by rw [hws]; rfl), IH n (Nat.lt_succ_self n) cs hcs⟩

theorem niceWS_squash (l : List Char) : niceWS (squash l) = true :=
  niceWS_squash_aux l.length l le_rfl

theorem niceWS_dropWhileWS : ∀ l : List Char,
    niceWS l = true → niceWS (l.dropWhile isWS) = true := by
  intro l
  induction l with
  | nil => intro h; exact h
  | cons c cs IH =>
    intro h
    cases hws : isWS c with
    | true => rw [List.dropWhile_cons_of_pos hws]; exact IH (niceWS_tail h)
    | false => rw [List.dropWhile_cons_of_neg (by simp [hws])]; exact h

theorem niceWS_append_left : ∀ v w : List Char,
    niceWS (v ++ w) = true → niceWS v = true := by
  intro v w
  induction v with
  | nil => intro _; rfl
  | cons c cs IH =>
    intro h
    rw [List.cons_append] at h
    simp only [niceWS, Bool.and_eq_true, Bool.or_eq_true] at h ⊢
    obtain ⟨h1, h2⟩ := h
    refine ⟨?_, IH h2⟩
    rcases h1 with h1 | h1
    · exact Or.inl h1
    · right
      refine ⟨h1.1, ?_⟩
      cases cs with
      | nil => rfl
      | cons d ds =>
        rw [List.cons_append] at h1
        exact h1.2

theorem niceWS_trimR {l : List Char} (h : niceWS l = true) :
    niceWS (trimR l) = true := by
  obtain ⟨hdec, _⟩ := trimR_decomp l
  rw [hdec] at h
  exact niceWS_append_left _ _ h

theorem niceWS_squash_id : ∀ l : List Char, niceWS l = true → squash l = l := by
  intro l
  induction l with
  | nil => intro _; rfl
  | cons c cs IH =>
    intro h
    simp only [niceWS, Bool.and_eq_true, Bool.or_eq_true] at h
    obtain ⟨h1, h2⟩ := h
    cases hws : isWS c with
    | true =>
      have hsp : c = ' ' ∧ headNotWS cs = true := by
        rcases h1 with h1 | h1
        · rw [hws] at h1; exact absurd h1 (by simp)
        · exact ⟨by simpa using h1.1, h1.2⟩
      obtain ⟨hc, hh⟩ := hsp
      rw [squash_cons, if_pos hws]
      have hdw : cs.dropWhile isWS = cs := by
        cases cs with
        | nil => rfl
        | cons d ds =>
          have : isWS d = false := by
            by_contra hcon
            simp only [Bool.not_eq_false] at hcon
            rw [show headNotWS (d :: ds) = !isWS d from rfl, hcon] at hh
            exact absurd hh (by simp)
          rw [List.dropWhile_cons_of_neg (by simp [this])]
      rw [hdw, IH h2, hc]
    | false =>
      rw [squash_cons, if_neg (by simp [hws]), IH h2]

theorem trimL_eq_self_of_head {l : List Char} (h : headNotWS l = true) :
    trimL l = l := by
  cases l with
  | nil => rfl
  | cons c cs =>
    have hws : isWS c = false := by
      by_contra hcon
      simp only [Bool.not_eq_false] at hcon
      rw [show headNotWS (c :: cs) = !isWS c from rfl, hcon] at h
      exact absurd h (by simp)
    show (c :: cs).dropWhile isWS = c :: cs
    rw [List.dropWhile_cons_of_neg (by simp [hws])]

theorem dropWhileWS_idem (l : List Char) :
    (l.dropWhile isWS).dropWhile isWS = l.dropWhile isWS :=
  trimL_eq_self_of_head (headNotWS_dropWhileWS l)

theorem trimR_idem (l : List Char) : trimR (trimR l) = trimR l := by
  show (((l.reverse.dropWhile isWS).reverse).reverse.dropWhile isWS).reverse =
    (l.reverse.dropWhile isWS).reverse
  rw [List.reverse_reverse, dropWhileWS_idem]

theorem trimR_headNotWS {l : List Char} (h : headNotWS l = true) :
    headNotWS (trimR l) = true := by
  obtain ⟨hdec, _⟩ := trimR_decomp l
  cases htr : trimR l with
  | nil => rfl
  | cons y ys =>
    rw [htr, List.cons_append] at hdec
    rw [hdec] at h
    exact h

theorem strip_of_clean {l : List Char} (h1 : headNotWS l = true) (h2 : trimR l = l) :
    strip l = l := by
  unfold strip
  rw [trimL_eq_self_of_head h1, h2]

theorem mem_squash_aux : ∀ n : ℕ, ∀ l : List Char, ∀ x : Char,
    l.length ≤ n → x ∈ squash l → x = ' ' ∨ x ∈ l := by
  intro n
  induction n using Nat.strong_induction_on with
  | _ n IH =>
    intro l x hl hx
    match n, l with
    | _, [] => rw [squash_nil] at hx; exact absurd hx (by simp)
    | 0, c :: cs => simp at hl
    | n + 1, c :: cs =>
      simp only [List.length_cons] at hl
      have hcs : cs.length ≤ n := by omega
      cases hws : isWS c with
      | true =>
        rw [squash_cons, if_pos hws] at hx
        rcases List.mem_cons.mp hx with hx | hx
        · exact Or.inl hx
        · have hlen : (cs.dropWhile isWS).length ≤ n :=
            le_trans (List.dropWhile_sublist isWS).length_le hcs
          rcases IH n (Nat.lt_succ_self n) (cs.dropWhile isWS) x hlen hx with h | h
          · exact Or.inl h
          · exact Or.inr (List.mem_cons_of_mem c ((List.dropWhile_sublist isWS).mem h))
      | false =>
        rw [squash_cons, if_neg (by simp [hws])] at hx
        rcases List.mem_cons.mp hx with hx | hx
        · exact Or.inr (hx ▸ List.mem_cons_self c cs)
        · rcases IH n (Nat.lt_succ_self n) cs x hcs hx with h | h
          · exact Or.inl h
          · exact Or.inr (List.mem_cons_of_mem c h)

theorem mem_squash {l : List Char} {x : Char} (hx : x ∈ squash l) :
    x = ' ' ∨ x ∈ l :=
  mem_squash_aux l.length l x le_rfl hx

theorem map_fix {l : List Char} {f : Char → Char} (h : ∀ c ∈ l, f c = c) :
    l.map f = l := by
  induction l with
  | nil => rfl
  | cons c cs IH =>
    rw [List.map_cons, h c (List.mem_cons_self c cs),
      IH (fun d hd => h d (List.mem_cons_of_mem c hd))]

theorem normalize_upper_fix (x : List Char) :
    ∀ c ∈ normalize_text x, upperChar c = c := by
  intro c hc
  unfold normalize_text strip at hc
  have hc1 : c ∈ trimL (squash (subDates false (x.map upperChar))) := by
    obtain ⟨hdec, _⟩ := trimR_decomp (trimL (squash (subDates false (x.map upperChar))))
    rw [hdec]
    exact List.mem_append_left _ hc
  have hc2 : c ∈ squash (subDates false (x.map upperChar)) :=
    (List.dropWhile_sublist isWS).mem hc1
  rcases mem_squash hc2 with h | h
  · rw [h]; decide
  · have h3 := mem_subDates h
    rw [List.mem_map] at h3
    obtain ⟨d, _, hd⟩ := h3
    rw [← hd]
    exact upperChar_idem d

theorem normalize_noDate (x : List Char) :
    noDateAt false (normalize_text x) = true := by
  unfold normalize_text strip
  apply noDate_trimR
  show noDateAt false ((squash (subDates false (x.map upperChar))).dropWhile isWS) = true
  apply noDate_dropWhileWS
  apply noDate_squash
  exact noDate_subDates false _

theorem normalize_niceWS (x : List Char) : niceWS (normalize_text x) = true := by
  unfold normalize_text strip
  apply niceWS_trimR
  show niceWS ((squash (subDates false (x.map upperChar))).dropWhile isWS) = true
  apply niceWS_dropWhileWS
  exact niceWS_squash _

theorem normalize_headNotWS (x : List Char) :
    headNotWS (normalize_text x) = true := by
  unfold normalize_text strip
  apply trimR_headNotWS
  show headNotWS ((squash (subDates false (x.map upperChar))).dropWhile isWS) = true
  exact headNotWS_dropWhileWS _

theorem normalize_trimR_fix (x : List Char) :
    trimR (normalize_text x) = normalize_text x := by
  unfold normalize_text strip
  exact trimR_idem _

/-- C6: the text normalizer is idempotent: for every string `x`,
`normalize_text (normalize_text x) = normalize_text x`. -/
theorem normalize_text_idempotent (x : List Char) :
    normalize_text (normalize_text x) = normalize_text x := by
  show strip (squash (subDates false ((normalize_text x).map upperChar))) = normalize_text x
  rw [map_fix (normalize_upper_fix x),
    subDates_id_of_noDate (normalize_noDate x),
    niceWS_squash_id _ (normalize_niceWS x)]
  exact strip_of_clean (normalize_headNotWS x) (normalize_trimR_fix x)

/--
C7 counterexample: the claim says `normalize_text` removes every substring
matching `D(1,2) sep D(1,2) sep D(2,4), sep being dash or slash,`, but the regex anchors the pattern
between word boundaries, so a date-like substring preceded by a word
character survives: `normalize_text "A1/2/2034"` still contains the
pattern substring `1/2/2034`.
-/
theorem normalize_date_cex :
    containsPat (normalize_text "A1/2/2034".data) = true := by decide

/--
C7 (amended): `normalize_text` removes every date-like substring that the
pattern word-boundary-anchored `D(1,2) sep D(1,2) sep D(2,4)` (sep being dash or slash) matches, i.e. every occurrence
of the pattern delimited by word boundaries (preceded by start-of-string or
a non-word character and followed by end-of-string or a non-word
character); the scan of the output finds no position admitting such a
match.  In particular `normalize_text "Replaced seal on 3/4/2022"` contains
no digit-slash-digit substring.
-/
theorem normalize_strips_boundary_dates :
    (∀ x : List Char, noDateAt false (normalize_text x) = true) ∧
      containsDSD (normalize_text "Replaced seal on 3/4/2022".data) = false :=
  ⟨normalize_noDate, by decide⟩

theorem lcsLenF_eq : ∀ n : ℕ, ∀ x y : List (List Char),
    x.length + y.length ≤ n → lcsLenF n x y = lcsLen x y := by
  intro n
  induction n using Nat.strong_induction_on with
  | _ n IH =>
    intro x y hl
    match n, x, y with
    | 0, x, y =>
      have hx : x = [] := by
        cases x with
        | nil => rfl
        | cons a as => simp at hl
      subst hx
      have hy : y = [] := by
        cases y with
        | nil => rfl
        | cons b bs => simp at hl
      subst hy
      rfl
    | n + 1, [], y => cases y <;> rfl
    | n + 1, a :: as, [] => rfl
    | n + 1, a :: as, b :: bs =>
      simp only [List.length_cons] at hl
      have h1 : as.length + bs.length ≤ n := by omega
      have h2 : (a :: as).length + bs.length ≤ n := by simp; omega
      have h3 : as.length + (b :: bs).length ≤ n := by simp; omega
      have hRHS : lcsLen (a :: as) (b :: bs) =
          if a = b then lcsLenF (as.length + 1 + bs.length) as bs + 1
          else max (lcsLenF (as.length + 1 + bs.length) (a :: as) bs)
            (lcsLenF (as.length + 1 + bs.length) as (b :: bs)) := rfl
      show (if a = b then lcsLenF n as bs + 1
          else max (lcsLenF n (a :: as) bs) (lcsLenF n as (b :: bs))) = _
      rw [hRHS]
      by_cases hab : a = b
      · rw [if_pos hab, if_pos hab,
          IH n (Nat.lt_succ_self n) as bs h1,
          IH (as.length + 1 + bs.length) (by omega) as bs (by omega)]
      · rw [if_neg hab, if_neg hab,
          IH n (Nat.lt_succ_self n) (a :: as) bs h2,
          IH n (Nat.lt_succ_self n) as (b :: bs) h3,
          IH (as.length + 1 + bs.length) (by omega) (a :: as) bs
            (by simp only [List.length_cons]; omega),
          IH (as.length + 1 + bs.length) (by omega) as (b :: bs)
            (by simp only [List.length_cons]; omega)]

theorem lcsLenF_le_left : ∀ n : ℕ, ∀ x y : List (List Char),
    lcsLenF n x y ≤ x.length := by
  intro n
  induction n with
  | zero => intro x y; exact Nat.zero_le _
  | succ n IH =>
    intro x y
    match x, y with
    | [], y => exact Nat.zero_le _
    | a :: as, [] => exact Nat.zero_le _
    | a :: as, b :: bs =>
      show (if a = b then lcsLenF n as bs + 1
          else max (lcsLenF n (a :: as) bs) (lcsLenF n as (b :: bs))) ≤ _
      by_cases hab : a = b
      · rw [if_pos hab]
        simp only [List.length_cons]
        exact Nat.succ_le_succ (IH as bs)
      · rw [if_neg hab]
        apply max_le
        · exact IH (a :: as) bs
        · exact le_trans (IH as (b :: bs)) (by simp)

theorem lcsLenF_le_right : ∀ n : ℕ, ∀ x y : List (List Char),
    lcsLenF n x y ≤ y.length := by
  intro n
  induction n with
  | zero => intro x y; exact Nat.zero_le _
  | succ n IH =>
    intro x y
    match x, y with
    | [], y => exact Nat.zero_le _
    | a :: as, [] => exact Nat.zero_le _
    | a :: as, b :: bs =>
      show (if a = b then lcsLenF n as bs + 1
          else max (lcsLenF n (a :: as) bs) (lcsLenF n as (b :: bs))) ≤ _
      by_cases hab : a = b
      · rw [if_pos hab]
        simp only [List.length_cons]
        exact Nat.succ_le_succ (IH as bs)
      · rw [if_neg hab]
        apply max_le
        · exact le_trans (IH (a :: as) bs) (by simp)
        · exact IH as (b :: bs)

theorem lcsLen_le_left (x y : List (List Char)) : lcsLen x y ≤ x.length :=
  lcsLenF_le_left _ x y

theorem lcsLen_le_right (x y : List (List Char)) : lcsLen x y ≤ y.length :=
  lcsLenF_le_right _ x y

theorem lcsLenF_self : ∀ n : ℕ, ∀ x : List (List Char),
    x.length ≤ n → lcsLenF n x x = x.length := by
  intro n
  induction n with
  | zero =>
    intro x hl
    cases x with
    | nil => rfl
    | cons a as => simp at hl
  | succ n IH =>
    intro x hl
    match x with
    | [] => rfl
    | a :: as =>
      simp only [List.length_cons] at hl
      show (if a = a then lcsLenF n as as + 1
          else max (lcsLenF n (a :: as) as) (lcsLenF n as (a :: as))) = _
      rw [if_pos rfl, IH as (by omega)]
      rfl

theorem lcsLen_self (x : List (List Char)) : lcsLen x x = x.length :=
  lcsLenF_self _ x (by omega)

theorem ratioQ_nonneg (x y : List (List Char)) : 0 ≤ ratioQ x y := by
  unfold ratioQ
  split
  · norm_num
  · apply div_nonneg
    · positivity
    · positivity

theorem ratioQ_le_one (x y : List (List Char)) : ratioQ x y ≤ 1 := by
  unfold ratioQ
  split
  · norm_num
  · rename_i hne
    have hpos : (0 : ℚ) < (x.length : ℚ) + (y.length : ℚ) := by
      have h0 : 0 < x.length + y.length := Nat.pos_of_ne_zero hne
      exact_mod_cast h0
    rw [div_le_one hpos]
    have h1 := lcsLen_le_left x y
    have h2 := lcsLen_le_right x y
    have h3 : 2 * lcsLen x y ≤ x.length + y.length := by omega
    exact_mod_cast h3

theorem ratioQ_self (x : List (List Char)) : ratioQ x x = 1 := by
  unfold ratioQ
  split
  · rfl
  · rename_i hne
    rw [lcsLen_self]
    have hx : (0 : ℚ) < (x.length : ℚ) + (x.length : ℚ) := by
      have h0 : 0 < x.length + x.length := Nat.pos_of_ne_zero hne
      exact_mod_cast h0
    field_simp
    ring

/--
C8 counterexample: with both arguments the empty string the two token
sequences are identical (`[] = []`), so the claim requires 100, but the
empty-argument guard of `semantic_overlap` fires first and the result is 0.
-/
theorem semantic_overlap_cex :
    splitWS ([] : List Char) = splitWS ([] : List Char) ∧
      semantic_overlap [] [] = 0 ∧ (0 : ℚ) ≠ 100 := by
  refine ⟨rfl, rfl, by norm_num⟩

/--
C8 (amended): `semantic_overlap` returns 0 whenever either argument is the
empty string; returns 100 whenever both arguments are non-empty and split
into identical whitespace-delimited token sequences; and always yields a
value between 0 and 100.
-/
theorem semantic_overlap_props :
    (∀ a b : List Char, (a = [] ∨ b = []) → semantic_overlap a b = 0) ∧
      (∀ a b : List Char, a ≠ [] → b ≠ [] → splitWS a = splitWS b →
        semantic_overlap a b = 100) ∧
      (∀ a b : List Char, 0 ≤ semantic_overlap a b ∧ semantic_overlap a b ≤ 100) := by
  refine ⟨?_, ?_, ?_⟩
  · intro a b h
    unfold semantic_overlap
    rw [if_pos h]
  · intro a b ha hb hsplit
    unfold semantic_overlap
    rw [if_neg (by simp [ha, hb]), hsplit, ratioQ_self]
    norm_num
  · intro a b
    unfold semantic_overlap
    split
    · norm_num
    · constructor
      · have := ratioQ_nonneg (splitWS a) (splitWS b)
        positivity
      · have := ratioQ_le_one (splitWS a) (splitWS b)
        nlinarith [ratioQ_nonneg (splitWS a) (splitWS b)]

/-- Witness for the amended C8 at concrete inputs. -/
theorem semantic_overlap_props_w :
    "A B".data ≠ [] ∧ " A  B ".data ≠ [] ∧
      splitWS "A B".data = splitWS " A  B ".data ∧
      semantic_overlap "A B".data " A  B ".data = 100 :=
  ⟨by decide, by decide, by decide,
    semantic_overlap_props.2.1 _ _ (by decide) (by decide) (by decide)⟩

/--
C2 counterexample: at `supplier = 50`, `fair = -10` the absolute percent
deviation is `600 > 5`, so the claim requires the needs-review
recommendation; but the code's test `abs(supplier - fair)/fair <= 0.05`
has a negative left-hand side for negative fair values and succeeds, so
the within-expected-range recommendation is returned.
-/
theorem get_decision_cex :
    (get_decision_conclusion 50 (some (-10))).conclusion =
        "IN EXPECTED RANGE (±5%). Consider approving." ∧
      ¬ (|((50 : ℚ) - (-10)) / (-10) * 100| ≤ 5) ∧ ¬ ((50 : ℚ) < -10) := by
  refine ⟨?_, by norm_num, by norm_num⟩
  have h0 : ((-10 : ℚ) = 0) = False := by norm_num
  have h1 : ((50 : ℚ) < -10) = False := by norm_num
  have h2 : (|(50 : ℚ) - (-10)| / (-10) ≤ 5 / 100) = True := by
    simp only [eq_iff_iff, iff_true]
    rw [show |(50 : ℚ) - (-10)| = 60 by norm_num]
    norm_num
  simp only [get_decision_conclusion, h0, h1, h2, if_false, if_true]

/--
C2 (amended): for every supplier value `s ≥ 0`: absent (NaN) or zero fair
hours yield the manual-review decision with alert color `#b0202e` and
display `"N/A (no historical data)"`; else if `s < fair` the approve /
below-historic-average decision (`#22aa58`); else if the code's range test
`|s - fair| / fair ≤ 0.05` holds - which for positive fair hours is
exactly absolute percent deviation ≤ 5, since `s ≥ fair` in this branch -
the within-expected-range decision; otherwise the needs-review decision,
whose percent display carries an explicit sign and one decimal digit.
The classifier maps `(95, 100)` to approve, `(104, 100)` to within-range,
`(120, 100)` to needs-review displaying `"+20.0%"`, and `(50, 0)` to
`"N/A (no historical data)"`.
-/
theorem get_decision_props :
    (∀ s : ℚ, 0 ≤ s →
      get_decision_conclusion s none = noHistData ∧
        get_decision_conclusion s (some 0) = noHistData ∧
        noHistData.percent_display = "N/A (no historical data)" ∧
        noHistData.color = "#b0202e") ∧
      (∀ s f : ℚ, 0 ≤ s → f ≠ 0 → s < f →
        (get_decision_conclusion s (some f)).conclusion =
            "FAIR QUOTE: Supplier below historic average. Consider approving." ∧
          (get_decision_conclusion s (some f)).color = "#22aa58") ∧
      (∀ s f : ℚ, 0 ≤ s → f ≠ 0 → ¬ s < f → |s - f| / f ≤ 5 / 100 →
        (get_decision_conclusion s (some f)).conclusion =
          "IN EXPECTED RANGE (±5%). Consider approving.") ∧
      (∀ s f : ℚ, 0 ≤ s → f ≠ 0 → ¬ s < f → ¬ (|s - f| / f ≤ 5 / 100) →
        (get_decision_conclusion s (some f)).conclusion =
            "HIGHER THAN HISTORIC — Needs BP review." ∧
          (get_decision_conclusion s (some f)).percent_display =
            (if 0 ≤ (s - f) / f * 100 then "+" else "") ++ fmt1 ((s - f) / f * 100) ++ "%") ∧
      (get_decision_conclusion 95 (some 100)).conclusion =
        "FAIR QUOTE: Supplier below historic average. Consider approving." ∧
      (get_decision_conclusion 104 (some 100)).conclusion =
        "IN EXPECTED RANGE (±5%). Consider approving." ∧
      (get_decision_conclusion 120 (some 100)).conclusion =
        "HIGHER THAN HISTORIC — Needs BP review." ∧
      (get_decision_conclusion 120 (some 100)).percent_display = "+20.0%" ∧
      (get_decision_conclusion 50 (some 0)).percent_display = "N/A (no historical data)" := by
  have hnone : ∀ s : ℚ, get_decision_conclusion s none = noHistData := fun s => rfl
  have hzero : ∀ s : ℚ, get_decision_conclusion s (some 0) = noHistData := by
    intro s
    simp only [get_decision_conclusion, eq_self_iff_true, if_true]
  have happrove : ∀ s f : ℚ, f ≠ 0 → s < f →
      get_decision_conclusion s (some f) =
        { conclusion := "FAIR QUOTE: Supplier below historic average. Consider approving."
          color := "#22aa58"
          percent_display := (if 0 ≤ (s - f) / f * 100 then "+" else "") ++
            fmt1 ((s - f) / f * 100) ++ "%"
          diff_class := if (s - f) / f * 100 < 0 then "diff-negative"
            else if |(s - f) / f * 100| ≤ 5 then "diff-neutral" else "diff-positive" } := by
    intro s f hf hs
    simp only [get_decision_conclusion, if_neg hf, if_pos hs]
  have hrange : ∀ s f : ℚ, f ≠ 0 → ¬ s < f → |s - f| / f ≤ 5 / 100 →
      (get_decision_conclusion s (some f)).conclusion =
        "IN EXPECTED RANGE (±5%). Consider approving." := by
    intro s f hf hs hr
    simp only [get_decision_conclusion, if_neg hf, if_neg hs, if_pos hr]
  have hreview : ∀ s f : ℚ, f ≠ 0 → ¬ s < f → ¬ (|s - f| / f ≤ 5 / 100) →
      get_decision_conclusion s (some f) =
        { conclusion := "HIGHER THAN HISTORIC — Needs BP review."
          color := "#b0202e"
          percent_display := (if 0 ≤ (s - f) / f * 100 then "+" else "") ++
            fmt1 ((s - f) / f * 100) ++ "%"
          diff_class := if (s - f) / f * 100 < 0 then "diff-negative"
            else if |(s - f) / f * 100| ≤ 5 then "diff-neutral" else "diff-positive" } := by
    intro s f hf hs hr
    simp only [get_decision_conclusion, if_neg hf, if_neg hs, if_neg hr]
  refine ⟨fun s _ => ⟨hnone s, hzero s, rfl, rfl⟩, ?_, ?_, ?_, ?_, ?_, ?_, ?_, ?_⟩
  · intro s f _ hf hs
    rw [happrove s f hf hs]
    exact ⟨rfl, rfl⟩
  · intro s f _ hf hs hr
    exact hrange s f hf hs hr
  · intro s f _ hf hs hr
    rw [hreview s f hf hs hr]
    exact ⟨rfl, rfl⟩
  · rw [happrove 95 100 (by norm_num) (by norm_num)]
  · exact hrange 104 100 (by norm_num) (by norm_num) (by rw [show |(104 : ℚ) - 100| = 4 by norm_num]; norm_num)
  · rw [(hreview 120 100 (by norm_num) (by norm_num) (by rw [show |(120 : ℚ) - 100| = 20 by norm_num]; norm_num))]
  · rw [(hreview 120 100 (by norm_num) (by norm_num) (by rw [show |(120 : ℚ) - 100| = 20 by norm_num]; norm_num))]
    show (if 0 ≤ ((120 : ℚ) - 100) / 100 * 100 then "+" else "") ++
      fmt1 (((120 : ℚ) - 100) / 100 * 100) ++ "%" = "+20.0%"
    rw [show ((120 : ℚ) - 100) / 100 * 100 = 20 by norm_num, if_pos (by norm_num)]
    have : fmt1 20 = "20.0" := by
      unfold fmt1
      rw [show round ((20 : ℚ) * 10) = 200 by norm_num [round_eq]]
      decide
    rw [this]
    decide
  · rw [hzero 50]
    rfl

/-- Witness for the amended C2 at a concrete input. -/
theorem get_decision_props_w :
    (0 : ℚ) ≤ 95 ∧ (100 : ℚ) ≠ 0 ∧ (95 : ℚ) < 100 ∧
      (get_decision_conclusion 95 (some 100)).conclusion =
        "FAIR QUOTE: Supplier below historic average. Consider approving." :=
  ⟨by norm_num, by norm_num, by norm_num,
    (get_decision_props.2.1 95 100 (by norm_num) (by norm_num) (by norm_num)).1⟩

theorem insertKey_countP : ∀ cl : List (List Char × List (List Char)), ∀ k : List Char,
    cl.countP (fun c => decide (k ∈ c.2)) = 0 →
    ∀ x : List Char, (insertKey cl k).countP (fun c => decide (x ∈ c.2)) =
      cl.countP (fun c => decide (x ∈ c.2)) + (if x = k then 1 else 0) := by
  intro cl k
  induction cl with
  | nil =>
    intro _ x
    by_cases hx : x = k
    · subst hx
      simp [insertKey, List.countP_cons]
    · simp [insertKey, List.countP_cons, hx, Ne.symm hx]
  | cons c rest IH =>
    obtain ⟨r, mem⟩ := c
    intro h0 x
    rw [List.countP_cons] at h0
    have hmem : k ∉ mem := by
      intro hk
      simp [hk] at h0
    have hrest : rest.countP (fun c => decide (k ∈ c.2)) = 0 := by
      by_cases hk : k ∈ mem
      · exact absurd hk hmem
      · simpa [hk] using h0
    by_cases hr : 90 ≤ token_set_ratio k r
    · rw [show insertKey ((r, mem) :: rest) k = (r, mem ++ [k]) :: rest from by
        simp [insertKey, if_pos hr]]
      rw [List.countP_cons, List.countP_cons]
      by_cases hx : x = k
      · subst hx
        simp [hmem, List.mem_append]
      · simp only [List.mem_append, List.mem_singleton]
        have : (x ∈ mem ∨ x = k) ↔ x ∈ mem := by
          constructor
          · rintro (h | h)
            · exact h
            · exact absurd h hx
          · exact Or.inl
        simp [this, hx]
    · rw [show insertKey ((r, mem) :: rest) k = (r, mem) :: insertKey rest k from by
        simp [insertKey, if_neg hr]]
      rw [List.countP_cons, List.countP_cons, IH hrest x]
      ring

theorem foldl_insertKey_countP : ∀ ks : List (List Char),
    ∀ acc : List (List Char × List (List Char)), ks.Nodup →
    (∀ k ∈ ks, acc.countP (fun c => decide (k ∈ c.2)) = 0) →
    ∀ x : List Char, (ks.foldl insertKey acc).countP (fun c => decide (x ∈ c.2)) =
      acc.countP (fun c => decide (x ∈ c.2)) + (if x ∈ ks then 1 else 0) := by
  intro ks
  induction ks with
  | nil => intro acc _ _ x; simp
  | cons k ks IH =>
    intro acc hnd hz x
    have hk0 : acc.countP (fun c => decide (k ∈ c.2)) = 0 :=
      hz k (List.mem_cons_self k ks)
    have hnd' : ks.Nodup := (List.nodup_cons.mp hnd).2
    have hknot : k ∉ ks := (List.nodup_cons.mp hnd).1
    have hz' : ∀ k' ∈ ks, (insertKey acc k).countP (fun c => decide (k' ∈ c.2)) = 0 := by
      intro k' hk'
      rw [insertKey_countP acc k hk0 k']
      have hne : k' ≠ k := by
        intro hcon
        exact hknot (hcon ▸ hk')
      rw [hz k' (List.mem_cons_of_mem k hk'), if_neg hne]
    show ((ks.foldl insertKey (insertKey acc k)).countP (fun c => decide (x ∈ c.2))) = _
    rw [IH (insertKey acc k) hnd' hz' x, insertKey_countP acc k hk0 x]
    by_cases hx : x = k
    · subst hx
      rw [if_pos rfl, if_neg hknot, if_pos (List.mem_cons_self x ks)]
    · rw [if_neg hx]
      by_cases hxs : x ∈ ks
      · rw [if_pos hxs, if_pos (List.mem_cons_of_mem k hxs)]
      · rw [if_neg hxs, if_neg (by simp [hx, hxs])]

theorem firstUniques_mem : ∀ ks seen : List (List Char), ∀ x : List Char,
    x ∈ firstUniques seen ks ↔ x ∈ ks ∧ x ∉ seen := by
  intro ks
  induction ks with
  | nil => intro seen x; simp [firstUniques]
  | cons k ks IH =>
    intro seen x
    by_cases hk : k ∈ seen
    · rw [show firstUniques seen (k :: ks) = firstUniques seen ks from by
        simp [firstUniques, hk]]
      rw [IH seen x]
      constructor
      · rintro ⟨h1, h2⟩
        exact ⟨List.mem_cons_of_mem k h1, h2⟩
      · rintro ⟨h1, h2⟩
        rcases List.mem_cons.mp h1 with h1 | h1
        · exact absurd (h1 ▸ hk) h2
        · exact ⟨h1, h2⟩
    · rw [show firstUniques seen (k :: ks) = k :: firstUniques (k :: seen) ks from by
        simp [firstUniques, hk]]
      constructor
      · intro hx
        rcases List.mem_cons.mp hx with hx | hx
        · exact ⟨hx ▸ List.mem_cons_self k ks, hx ▸ hk⟩
        · obtain ⟨h1, h2⟩ := (IH (k :: seen) x).mp hx
          refine ⟨List.mem_cons_of_mem k h1, fun hcon => h2 (List.mem_cons_of_mem k hcon)⟩
      · rintro ⟨h1, h2⟩
        rcases List.mem_cons.mp h1 with h1 | h1
        · exact h1 ▸ List.mem_cons_self k _
        · by_cases hxk : x = k
          · exact hxk ▸ List.mem_cons_self k _
          · exact List.mem_cons_of_mem k ((IH (k :: seen) x).mpr
              ⟨h1, by simp [hxk, h2]⟩)

theorem firstUniques_nodup : ∀ ks seen : List (List Char),
    (firstUniques seen ks).Nodup := by
  intro ks
  induction ks with
  | nil => intro seen; simp [firstUniques]
  | cons k ks IH =>
    intro seen
    by_cases hk : k ∈ seen
    · rw [show firstUniques seen (k :: ks) = firstUniques seen ks from by
        simp [firstUniques, hk]]
      exact IH seen
    · rw [show firstUniques seen (k :: ks) = k :: firstUniques (k :: seen) ks from by
        simp [firstUniques, hk]]
      rw [List.nodup_cons]
      refine ⟨?_, IH (k :: seen)⟩
      intro hcon
      exact ((firstUniques_mem ks (k :: seen) k).mp hcon).2 (List.mem_cons_self k seen)

theorem buildClusters_countP (keys : List (List Char)) (x : List Char) :
    (buildClusters keys).countP (fun c => decide (x ∈ c.2)) =
      if x ∈ keys ∧ x ≠ [] then 1 else 0 := by
  unfold buildClusters
  rw [foldl_insertKey_countP _ []
    (List.Nodup.filter _ (firstUniques_nodup keys []))
    (by intro k _; rfl) x]
  rw [List.countP_nil]
  have hmem : x ∈ (firstUniques [] keys).filter (fun k => !k.isEmpty) ↔
      x ∈ keys ∧ x ≠ [] := by
    rw [List.mem_filter, firstUniques_mem]
    constructor
    · rintro ⟨⟨h1, _⟩, h2⟩
      refine ⟨h1, ?_⟩
      intro hcon
      subst hcon
      exact absurd h2 (by decide)
    · rintro ⟨h1, h2⟩
      refine ⟨⟨h1, by simp⟩, ?_⟩
      cases hx : x with
      | nil => exact absurd hx h2
      | cons a as => simp
  by_cases hx : x ∈ keys ∧ x ≠ []
  · rw [if_pos (hmem.mpr hx), if_pos hx]
  · rw [if_neg (fun hcon => hx (hmem.mp hcon)), if_neg hx]

theorem insertKey_cases : ∀ cl : List (List Char × List (List Char)), ∀ k : List Char,
    (∃ l₁ r mem l₂, cl = l₁ ++ (r, mem) :: l₂ ∧
        insertKey cl k = l₁ ++ (r, mem ++ [k]) :: l₂ ∧ 90 ≤ token_set_ratio k r ∧
        ∀ c ∈ l₁, token_set_ratio k c.1 < 90) ∨
      ((∀ c ∈ cl, token_set_ratio k c.1 < 90) ∧ insertKey cl k = cl ++ [(k, [k])]) := by
  intro cl k
  induction cl with
  | nil => right; exact ⟨by simp, rfl⟩
  | cons c rest IH =>
    obtain ⟨r, mem⟩ := c
    by_cases h : 90 ≤ token_set_ratio k r
    · left
      exact ⟨[], r, mem, rest, rfl, by simp [insertKey, if_pos h], h, by simp⟩
    · rcases IH with ⟨l₁, r', mem', l₂, hdec, heq, hge, hlt⟩ | ⟨hall, heq⟩
      · left
        refine ⟨(r, mem) :: l₁, r', mem', l₂, by rw [hdec]; rfl, ?_, hge, ?_⟩
        · show (if 90 ≤ token_set_ratio k r then (r, mem ++ [k]) :: rest
            else (r, mem) :: insertKey rest k) = _
          rw [if_neg h, heq]
          rfl
        · intro c hc
          rcases List.mem_cons.mp hc with hc | hc
          · rw [hc]
            show token_set_ratio k r < 90
            omega
          · exact hlt c hc
      · right
        refine ⟨?_, ?_⟩
        · intro c hc
          rcases List.mem_cons.mp hc with hc | hc
          · rw [hc]
            show token_set_ratio k r < 90
            omega
          · exact hall c hc
        · show (if 90 ≤ token_set_ratio k r then (r, mem ++ [k]) :: rest
            else (r, mem) :: insertKey rest k) = _
          rw [if_neg h, heq]
          rfl

theorem insertKey_pairwise {cl : List (List Char × List (List Char))} {k : List Char}
    (h : List.Pairwise (fun c c' => ∀ x ∈ c'.2, token_set_ratio x c.1 < 90) cl) :
    List.Pairwise (fun c c' => ∀ x ∈ c'.2, token_set_ratio x c.1 < 90) (insertKey cl k) := by
  rcases insertKey_cases cl k with ⟨l₁, r, mem, l₂, hdec, heq, hge, hlt⟩ | ⟨hall, heq⟩
  · rw [heq]
    rw [hdec, List.pairwise_append, List.pairwise_cons] at h
    obtain ⟨hp1, ⟨hc2, hp2⟩, hcross⟩ := h
    rw [List.pairwise_append, List.pairwise_cons]
    refine ⟨hp1, ⟨?_, hp2⟩, ?_⟩
    · intro c' hc'
      exact hc2 c' hc'
    · intro a ha b hb
      rcases List.mem_cons.mp hb with hb | hb
      · subst hb
        intro x hx
        rcases List.mem_append.mp hx with hx | hx
        · exact hcross a ha (r, mem) (List.mem_cons_self _ _) x hx
        · rw [List.mem_singleton.mp hx]
          exact hlt a ha
      · exact hcross a ha b (List.mem_cons_of_mem _ hb)
  · rw [heq, List.pairwise_append]
    refine ⟨h, by simp, ?_⟩
    intro a ha b hb
    rw [List.mem_singleton.mp hb]
    intro x hx
    rw [List.mem_singleton.mp hx]
    exact hall a ha

theorem insertKey_joinCond {cl : List (List Char × List (List Char))} {k : List Char}
    (h : ∀ c ∈ cl, ∀ x ∈ c.2, x = c.1 ∨ 90 ≤ token_set_ratio x c.1) :
    ∀ c ∈ insertKey cl k, ∀ x ∈ c.2, x = c.1 ∨ 90 ≤ token_set_ratio x c.1 := by
  rcases insertKey_cases cl k with ⟨l₁, r, mem, l₂, hdec, heq, hge, _⟩ | ⟨_, heq⟩
  · rw [heq]
    intro c hc x hx
    rcases List.mem_append.mp hc with hc | hc
    · exact h c (hdec ▸ List.mem_append_left _ hc) x hx
    · rcases List.mem_cons.mp hc with hc | hc
      · subst hc
        rcases List.mem_append.mp hx with hx | hx
        · exact h (r, mem) (hdec ▸ List.mem_append_right _ (List.mem_cons_self _ _)) x hx
        · rw [List.mem_singleton.mp hx]
          exact Or.inr hge
      · exact h c (hdec ▸ List.mem_append_right _ (List.mem_cons_of_mem _ hc)) x hx
  · rw [heq]
    intro c hc x hx
    rcases List.mem_append.mp hc with hc | hc
    · exact h c hc x hx
    · rw [List.mem_singleton.mp hc] at hx ⊢
      rw [List.mem_singleton.mp hx]
      exact Or.inl rfl

theorem insertKey_headRep {cl : List (List Char × List (List Char))} {k : List Char}
    (h : ∀ c ∈ cl, c.2.head? = some c.1) :
    ∀ c ∈ insertKey cl k, c.2.head? = some c.1 := by
  rcases insertKey_cases cl k with ⟨l₁, r, mem, l₂, hdec, heq, _, _⟩ | ⟨_, heq⟩
  · rw [heq]
    intro c hc
    rcases List.mem_append.mp hc with hc | hc
    · exact h c (hdec ▸ List.mem_append_left _ hc)
    · rcases List.mem_cons.mp hc with hc | hc
      · subst hc
        have hm := h (r, mem) (hdec ▸ List.mem_append_right _ (List.mem_cons_self _ _))
        cases mem with
        | nil => exact absurd hm (by simp)
        | cons m ms =>
          simp only [List.head?] at hm ⊢
          rw [List.cons_append]
          exact hm
      · exact h c (hdec ▸ List.mem_append_right _ (List.mem_cons_of_mem _ hc))
  · rw [heq]
    intro c hc
    rcases List.mem_append.mp hc with hc | hc
    · exact h c hc
    · rw [List.mem_singleton.mp hc]
      rfl

theorem insertKey_repNonempty {cl : List (List Char × List (List Char))} {k : List Char}
    (hk : k ≠ []) (h : ∀ c ∈ cl, c.1 ≠ []) :
    ∀ c ∈ insertKey cl k, c.1 ≠ [] := by
  rcases insertKey_cases cl k with ⟨l₁, r, mem, l₂, hdec, heq, _, _⟩ | ⟨_, heq⟩
  · rw [heq]
    intro c hc
    rcases List.mem_append.mp hc with hc | hc
    · exact h c (hdec ▸ List.mem_append_left _ hc)
    · rcases List.mem_cons.mp hc with hc | hc
      · subst hc
        exact h (r, mem) (hdec ▸ List.mem_append_right _ (List.mem_cons_self _ _))
      · exact h c (hdec ▸ List.mem_append_right _ (List.mem_cons_of_mem _ hc))
  · rw [heq]
    intro c hc
    rcases List.mem_append.mp hc with hc | hc
    · exact h c hc
    · rw [List.mem_singleton.mp hc]
      exact hk

theorem foldl_insertKey_preserve {P : List (List Char × List (List Char)) → Prop}
    {Q : List Char → Prop}
    (hstep : ∀ cl k, Q k → P cl → P (insertKey cl k)) :
    ∀ ks : List (List Char), ∀ acc : List (List Char × List (List Char)),
      (∀ k ∈ ks, Q k) → P acc → P (ks.foldl insertKey acc) := by
  intro ks
  induction ks with
  | nil => intro acc _ h; exact h
  | cons k ks IH =>
    intro acc hq h
    exact IH (insertKey acc k) (fun k' hk' => hq k' (List.mem_cons_of_mem k hk'))
      (hstep acc k (hq k (List.mem_cons_self k ks)) h)

/--
C3: the greedy clustering partitions the distinct non-empty combined keys:
(i) every key occurring among the inputs and non-empty lies in exactly one
cluster, and empty keys lie in none; (ii) first-match-wins: for every
cluster and every key in it, every earlier-created cluster's representative
scores below the 90 threshold against that key (`List.Pairwise` over the
creation-ordered cluster list); (iii) a key is either its own cluster's
representative (it opened the cluster) or scores at least 90 against the
representative it joined; (iv) each cluster's first member is its
representative; (v) representatives are never empty keys.
-/
theorem clustering_partition (keys : List (List Char)) :
    (∀ x : List Char,
        (buildClusters keys).countP (fun c => decide (x ∈ c.2)) =
          if x ∈ keys ∧ x ≠ [] then 1 else 0) ∧
      List.Pairwise (fun c c' => ∀ x ∈ c'.2, token_set_ratio x c.1 < 90)
        (buildClusters keys) ∧
      (∀ c ∈ buildClusters keys, ∀ x ∈ c.2, x = c.1 ∨ 90 ≤ token_set_ratio x c.1) ∧
      (∀ c ∈ buildClusters keys, c.2.head? = some c.1) ∧
      (∀ c ∈ buildClusters keys, c.1 ≠ []) := by
  refine ⟨buildClusters_countP keys, ?_, ?_, ?_, ?_⟩
  · unfold buildClusters
    exact foldl_insertKey_preserve (Q := fun _ => True)
      (fun cl k _ h => insertKey_pairwise h) _ [] (fun _ _ => trivial) List.Pairwise.nil
  · unfold buildClusters
    exact foldl_insertKey_preserve
      (P := fun cl => ∀ c ∈ cl, ∀ x ∈ c.2, x = c.1 ∨ 90 ≤ token_set_ratio x c.1)
      (Q := fun _ => True)
      (fun cl k _ h => insertKey_joinCond h) _ [] (fun _ _ => trivial) (by simp)
  · unfold buildClusters
    exact foldl_insertKey_preserve
      (P := fun cl => ∀ c ∈ cl, c.2.head? = some c.1)
      (Q := fun _ => True)
      (fun cl k _ h => insertKey_headRep h) _ [] (fun _ _ => trivial) (by simp)
  · unfold buildClusters
    refine foldl_insertKey_preserve
      (P := fun cl => ∀ c ∈ cl, c.1 ≠ [])
      (Q := fun k => k ≠ [])
      (fun cl k hq h => insertKey_repNonempty hq h) _ [] ?_ (by simp)
    intro k hk
    rw [List.mem_filter] at hk
    have := hk.2
    cases k with
    | nil => exact absurd this (by decide)
    | cons a as => simp

/-- Witness for C3 on a two-key dataset (one real key, one empty key): the
single resulting cluster has its representative as first member. -/
theorem clustering_partition_w :
    (("AB".data, ["AB".data]) ∈ buildClusters ["AB".data, []]) ∧
      ("AB".data, ["AB".data]).2.head? = some ("AB".data, ["AB".data]).1 :=
  ⟨by decide, (clustering_partition ["AB".data, []]).2.2.2.1 _ (by decide)⟩

/--
C10 counterexample: a record whose two text cells are both missing (NaN)
does not get the combined key `" | "`: the description side is stringified
to `"nan"` before the normalizer's NaN check, so the key is `"NAN | "`.
-/
theorem combined_key_cex :
    combinedKeyOf ⟨none, none, 0⟩ = "NAN | ".data ∧
      "NAN | ".data ≠ " | ".data := by
  constructor
  · decide
  · decide

/--
C10 (amended): every combined key is built as normalized discrepancy ++
`" | "` ++ normalized corrective action, so it always contains `" | "` and
is never empty.  A record whose two text fields are both present and empty
gets the combined key `" | "`; a record whose two text fields are both
missing (NaN) gets the non-empty key `"NAN | "` (the code stringifies the
description before its NaN check).  In either case the key is non-empty,
passes the clusterer's empty-key skip check, and is assigned to exactly one
cluster of the reference table's clustering.
-/
theorem combined_key_props :
    (∀ r : RawRecord, combinedKeyOf r ≠ [] ∧
        ∃ u v, combinedKeyOf r = u ++ sepKey ++ v) ∧
      (∀ r : RawRecord, r.description = some [] → r.correctiveAction = some [] →
        combinedKeyOf r = sepKey) ∧
      combinedKeyOf ⟨none, none, 0⟩ = "NAN | ".data ∧
      (∀ records : List RawRecord, ∀ r, r ∈ records →
        (buildClusters (records.map combinedKeyOf)).countP
          (fun c => decide (combinedKeyOf r ∈ c.2)) = 1) := by
  have hne : ∀ r : RawRecord, combinedKeyOf r ≠ [] := by
    intro r hcon
    unfold combinedKeyOf at hcon
    have := congrArg List.length hcon
    simp [sepKey] at this
  refine ⟨fun r => ⟨hne r, normDiscOf r, normCorrOf r, rfl⟩, ?_, by decide, ?_⟩
  · intro r h1 h2
    unfold combinedKeyOf normDiscOf normCorrOf
    rw [h1, h2]
    decide
  · intro records r hr
    rw [buildClusters_countP]
    rw [if_pos ⟨List.mem_map_of_mem combinedKeyOf hr, hne r⟩]

/-- Witness for the amended C10 at a concrete one-record dataset. -/
theorem combined_key_props_w :
    (⟨some "A".data, some "B".data, 1⟩ : RawRecord) ∈
        [(⟨some "A".data, some "B".data, 1⟩ : RawRecord)] ∧
      (⟨some [], some [], 1⟩ : RawRecord).description = some [] ∧
      combinedKeyOf ⟨some [], some [], 1⟩ = sepKey ∧
      (buildClusters ([(⟨some "A".data, some "B".data, 1⟩ : RawRecord)].map
          combinedKeyOf)).countP
        (fun c => decide (combinedKeyOf (⟨some "A".data, some "B".data, 1⟩ : RawRecord) ∈ c.2)) = 1 :=
  ⟨List.mem_cons_self _ _, rfl,
    combined_key_props.2.1 _ rfl rfl,
    combined_key_props.2.2.2 _ _ (List.mem_cons_self _ _)⟩

theorem find?_key_nodup {β : Type} : ∀ (l : List (List Char × β)) (g : List Char) (p : β),
    (l.map Prod.fst).Nodup → (g, p) ∈ l →
    l.find? (fun e => decide (e.1 = g)) = some (g, p) := by
  intro l
  induction l with
  | nil =>
    intro g p _ h
    simp at h
  | cons e rest IH =>
    intro g p hnd hmem
    rw [List.map_cons, List.nodup_cons] at hnd
    by_cases hk : e.1 = g
    · have hpe : e = (g, p) := by
        rcases List.mem_cons.mp hmem with h | h
        · exact h.symm
        · exact absurd (hk ▸ List.mem_map_of_mem Prod.fst h) hnd.1
      rw [hpe] at hk ⊢
      rw [List.find?_cons_of_pos]
      simp
    · rw [List.find?_cons_of_neg]
      · apply IH g p hnd.2
        rcases List.mem_cons.mp hmem with h | h
        · exact absurd (congrArg Prod.fst h).symm hk
        · exact h
      · simp [hk]

theorem aggOf_keys_nodup (records : List RawRecord) :
    ((aggOf records).map Prod.fst).Nodup := by
  unfold aggOf
  rw [List.map_map]
  have hfst : (Prod.fst ∘ fun g =>
      ((g, clusterMean records g, clusterCount records g) : List Char × ℚ × Nat)) = id := by
    funext g
    rfl
  rw [hfst, List.map_id]
  exact firstUniques_nodup _ []

theorem mergeStats_eq (records : List RawRecord) (r : RawRecord) (g : List Char)
    (hck : rowClusterKey records r = some g) (hr : r ∈ records) :
    mergeStats records r = some (clusterMean records g, clusterCount records g) := by
  have hmemAgg : ((g, clusterMean records g, clusterCount records g) :
      List Char × ℚ × Nat) ∈ aggOf records := by
    unfold aggOf
    apply List.mem_map_of_mem
    rw [firstUniques_mem]
    refine ⟨List.mem_filterMap.mpr ⟨r, hr, hck⟩, by simp⟩
  have hfind := find?_key_nodup (aggOf records) g _ (aggOf_keys_nodup records) hmemAgg
  unfold mergeStats
  rw [hck]
  show Option.map (fun e => e.2) (List.find? (fun e => decide (e.1 = g)) (aggOf records)) =
    some (clusterMean records g, clusterCount records g)
  rw [hfind]
  rfl

theorem exampleGroup_eq :
    clusterGroup exampleRecords exampleKey = exampleRecords := rfl

theorem exampleMean_eq : clusterMean exampleRecords exampleKey = 12 := by
  unfold clusterMean
  rw [exampleGroup_eq]
  show ((10 : ℚ) + (12 + (14 + 0))) / ((3 : ℕ) : ℚ) = 12
  norm_num

theorem round2_twelve : round2 12 = 12 := by
  unfold round2
  rw [show round ((12 : ℚ) * 100) = 1200 by norm_num [round_eq]]
  norm_num

/--
C5: for every dataset and every reference-table row annotated with a
cluster key `g`, `Actual Historic Hours` is the arithmetic mean of Total
Hours over the records whose combined key maps to cluster `g`,
`Occurrences` is their count, and `Fair Quote (hrs)` is the mean rounded to
two decimal digits; on the specification's example dataset (one scenario
occurring three times with hours 10, 12, 14) the first row's statistics are
mean 12, occurrences 3, fair quote 12.00.
-/
theorem table_cluster_stats :
    (∀ records : List RawRecord, ∀ row ∈ tableRows records, ∀ g : List Char,
      row.clusterKey = some g →
        row.actualHist = some (clusterMean records g) ∧
        row.occurrences = some (clusterCount records g) ∧
        row.fairQuote = some (round2 (clusterMean records g))) ∧
    exampleRow.actualHist = some 12 ∧
    exampleRow.occurrences = some 3 ∧
    exampleRow.fairQuote = some 12 := by
  have hgen : ∀ records : List RawRecord, ∀ row ∈ tableRows records, ∀ g : List Char,
      row.clusterKey = some g →
        row.actualHist = some (clusterMean records g) ∧
        row.occurrences = some (clusterCount records g) ∧
        row.fairQuote = some (round2 (clusterMean records g)) := by
    intro records row hrow g hg
    obtain ⟨r, hr, hfr⟩ := List.mem_map.mp hrow
    have hck : rowClusterKey records r = some g := by
      rw [← hfr] at hg
      exact hg
    have hms := mergeStats_eq records r g hck hr
    rw [← hfr]
    refine ⟨?_, ?_, ?_⟩
    · show (mergeStats records r).map (fun p => p.1) = _
      rw [hms]
      rfl
    · show (mergeStats records r).map (fun p => p.2) = _
      rw [hms]
      rfl
    · show (mergeStats records r).map (fun p => round2 p.1) = _
      rw [hms]
      rfl
  have hmem : exampleRow ∈ tableRows exampleRecords := by
    unfold exampleRow
    exact List.get_mem _ _ _
  have hck : exampleRow.clusterKey = some exampleKey := by decide
  obtain ⟨h1, h2, h3⟩ := hgen exampleRecords exampleRow hmem exampleKey hck
  refine ⟨hgen, ?_, ?_, ?_⟩
  · rw [h1, exampleMean_eq]
  · rw [h2]
    rfl
  · rw [h3, exampleMean_eq, round2_twelve]

/-- Witness for C5 at the example dataset. -/
theorem table_cluster_stats_w :
    exampleRow ∈ tableRows exampleRecords ∧
      exampleRow.clusterKey = some exampleKey ∧
      exampleRow.occurrences = some (clusterCount exampleRecords exampleKey) :=
  ⟨(by unfold exampleRow; exact List.get_mem _ _ _), by decide,
    (table_cluster_stats.1 exampleRecords exampleRow
      (by unfold exampleRow; exact List.get_mem _ _ _) exampleKey (by decide)).2.1⟩

theorem filter_ne_nil_iff {α : Type} (p : α → Bool) (l : List α) :
    l.filter p ≠ [] ↔ ∃ a ∈ l, p a = true := by
  rw [Ne, List.filter_eq_nil]
  push_neg
  simp

theorem insertionSort_eq_nil_iff (d c : List Char) (l : List RefRow) :
    l.insertionSort (overlapGE d c) = [] ↔ l = [] := by
  constructor
  · intro h
    have hp := List.perm_insertionSort (overlapGE d c) l
    rw [h] at hp
    exact hp.symm.eq_nil
  · intro h
    rw [h]
    rfl

theorem sortTake_eq_nil_iff (d c : List Char) (l : List RefRow) (n : Nat) (hn : n ≠ 0) :
    (l.insertionSort (overlapGE d c)).take n = [] ↔ l = [] := by
  rw [List.take_eq_nil_iff]
  constructor
  · intro h
    rcases h with h | h
    · exact absurd h hn
    · exact (insertionSort_eq_nil_iff d c l).mp h
  · intro h
    exact Or.inr ((insertionSort_eq_nil_iff d c l).mpr h)

/--
C1: for every submitted query (non-empty discrepancy and corrective-action
inputs) and every reference table, exactly one tier is selected, in strict
priority order: EXACT fires iff some reference row's combined key equals the
query's combined key; otherwise APPROXIMATE fires iff some row with a
differing combined key has averaged overlap ≥ 55; otherwise WEAK fires iff
the table is non-empty, and it selects only rows with overlap < 55; on the
empty table no tier fires (`analyze` is total, so no error is raised).
-/
theorem tier_selection (rows : List RefRow) (d c : List Char)
    (hd : d ≠ []) (hc : c ≠ []) :
    ((analyze rows d c).tier = MatchTier.exactT ↔
      ∃ row ∈ rows, row.combinedKey = combinedIn d c) ∧
    ((analyze rows d c).tier = MatchTier.approxT ↔
      (¬∃ row ∈ rows, row.combinedKey = combinedIn d c) ∧
      ∃ row ∈ rows, 55 ≤ overlapOf d c row ∧ row.combinedKey ≠ combinedIn d c) ∧
    ((analyze rows d c).tier = MatchTier.weakT ↔
      (¬∃ row ∈ rows, row.combinedKey = combinedIn d c) ∧
      (¬∃ row ∈ rows, 55 ≤ overlapOf d c row ∧ row.combinedKey ≠ combinedIn d c) ∧
      rows ≠ []) ∧
    ((analyze rows d c).tier = MatchTier.noneT ↔ rows = []) ∧
    (∀ rs, analyze rows d c = MatchResult.weakM rs →
      ∀ row ∈ rs, row ∈ rows ∧ overlapOf d c row < 55) := by
  have hex : exactRows rows d c ≠ [] ↔ ∃ row ∈ rows, row.combinedKey = combinedIn d c := by
    unfold exactRows
    rw [filter_ne_nil_iff]
    simp
  have hap : approxRows rows d c ≠ [] ↔
      ∃ row ∈ rows, 55 ≤ overlapOf d c row ∧ row.combinedKey ≠ combinedIn d c := by
    unfold approxRows
    rw [filter_ne_nil_iff]
    simp
  have htop : top2Rows rows d c ≠ [] ↔ approxRows rows d c ≠ [] := by
    unfold top2Rows
    exact not_congr (sortTake_eq_nil_iff d c _ 2 (by decide))
  by_cases h1 : exactRows rows d c ≠ []
  · have ha : analyze rows d c = MatchResult.exactM (exactRows rows d c) := by
      unfold analyze
      rw [if_pos h1]
    rw [ha]
    refine ⟨by simp [MatchResult.tier, hex.mp h1], ?_, ?_, ?_, ?_⟩
    · simp only [MatchResult.tier]
      constructor
      · intro h
        exact absurd h (by simp)
      · intro h
        exact absurd (hex.mp h1) h.1
    · simp only [MatchResult.tier]
      constructor
      · intro h
        exact absurd h (by simp)
      · intro h
        exact absurd (hex.mp h1) h.1
    · simp only [MatchResult.tier]
      constructor
      · intro h
        exact absurd h (by simp)
      · intro h
        rw [h] at h1
        exact (h1 (by simp [exactRows])).elim
    · intro rs hrs
      exact absurd hrs (by simp)
  · push_neg at h1
    have hnoex : ¬∃ row ∈ rows, row.combinedKey = combinedIn d c := by
      rw [← hex]
      simp [h1]
    have hkeys : ∀ row ∈ rows, row.combinedKey ≠ combinedIn d c := by
      intro row hrow heq
      exact hnoex ⟨row, hrow, heq⟩
    by_cases h2 : approxRows rows d c ≠ []
    · have ht2 : top2Rows rows d c ≠ [] := htop.mpr h2
      have ha : analyze rows d c = MatchResult.approxM (top2Rows rows d c) := by
        unfold analyze
        rw [if_neg (not_not_intro h1), if_pos ht2]
      rw [ha]
      refine ⟨?_, by simp [MatchResult.tier, hnoex, hap.mp h2], ?_, ?_, ?_⟩
      · simp only [MatchResult.tier]
        constructor
        · intro h
          exact absurd h (by simp)
        · intro h
          exact absurd h hnoex
      · simp only [MatchResult.tier]
        constructor
        · intro h
          exact absurd h (by simp)
        · intro h
          exact absurd (hap.mp h2) h.2.1
      · simp only [MatchResult.tier]
        constructor
        · intro h
          exact absurd h (by simp)
        · intro h
          rw [h] at h2
          exact (h2 (by simp [approxRows])).elim
      · intro rs hrs
        exact absurd hrs (by simp)
    · push_neg at h2
      have hnoap : ¬∃ row ∈ rows, 55 ≤ overlapOf d c row ∧ row.combinedKey ≠ combinedIn d c := by
        rw [← hap]
        simp [h2]
      have hlow : ∀ row ∈ rows, overlapOf d c row < 55 := by
        intro row hrow
        by_contra hge
        exact hnoap ⟨row, hrow, not_lt.mp hge, hkeys row hrow⟩
      have hfilter : rows.filter (fun row => decide (overlapOf d c row < 55)) = rows := by
        rw [List.filter_eq_self]
        intro row hrow
        simp [hlow row hrow]
      have ht2 : ¬ top2Rows rows d c ≠ [] := by
        rw [htop]
        simp [h2]
      by_cases h3 : rows = []
      · have ha : analyze rows d c = MatchResult.noneM := by
          unfold analyze
          rw [if_neg (not_not_intro h1), if_neg ht2, if_neg]
          subst h3
          simp [closestRows]
        rw [ha]
        refine ⟨by simp [MatchResult.tier, h3], by simp [MatchResult.tier, h3], ?_, by simp [MatchResult.tier, h3], ?_⟩
        · simp [MatchResult.tier, h3]
        · intro rs hrs
          exact absurd hrs (by simp)
      · have hcl : closestRows rows d c ≠ [] := by
          unfold closestRows
          rw [Ne, sortTake_eq_nil_iff d c _ 1 (by decide), hfilter]
          exact h3
        have ha : analyze rows d c = MatchResult.weakM (closestRows rows d c) := by
          unfold analyze
          rw [if_neg (not_not_intro h1), if_neg ht2, if_pos hcl]
        rw [ha]
        refine ⟨?_, ?_, by simp [MatchResult.tier, hnoex, hnoap, h3], ?_, ?_⟩
        · simp only [MatchResult.tier]
          constructor
          · intro h
            exact absurd h (by simp)
          · intro h
            exact absurd h hnoex
        · simp only [MatchResult.tier]
          constructor
          · intro h
            exact absurd h (by simp)
          · intro h
            exact absurd h.2 hnoap
        · simp only [MatchResult.tier]
          constructor
          · intro h
            exact absurd h (by simp)
          · intro h
            exact absurd h h3
        · intro rs hrs row hrow
          have hrs2 : rs = closestRows rows d c := by
            injection hrs.symm
          rw [hrs2] at hrow
          unfold closestRows at hrow
          have hmem : row ∈ rows.filter (fun row => decide (overlapOf d c row < 55)) :=
            ((List.perm_insertionSort (overlapGE d c) _).subset
              ((List.take_sublist _ _).subset hrow))
          rw [hfilter] at hmem
          exact ⟨hmem, hlow row hmem⟩

/-- Witness for C1: on the empty reference table no tier fires. -/
theorem tier_selection_w :
    "A".data ≠ ([] : List Char) ∧ "B".data ≠ ([] : List Char) ∧
      (analyze [] "A".data "B".data).tier = MatchTier.noneT :=
  ⟨by decide, by decide,
    (tier_selection [] "A".data "B".data (by decide) (by decide)).2.2.2.1.mpr rfl⟩

theorem top2_mem_approx (rows : List RefRow) (d c : List Char) :
    ∀ row ∈ top2Rows rows d c, row ∈ approxRows rows d c := by
  intro row hrow
  exact (List.perm_insertionSort (overlapGE d c) _).subset
    ((List.take_sublist _ _).subset hrow)

/--
C4: in the APPROXIMATE tier, the candidate list consists only of reference
rows whose combined key differs from the query's and whose averaged overlap
is ≥ 55; it holds `min 2 #qualifying` rows, is sorted by overlap descending,
equals the full qualifying set whenever at most 2 rows qualify, its first
entry has maximal overlap among all qualifying rows, and the decision
classifier is applied to that top-ranked candidate's fair-quote value.
-/
theorem approx_top2 (rows : List RefRow) (d c : List Char) (supplier : ℚ) :
    (∀ row ∈ top2Rows rows d c,
        row ∈ rows ∧ row.combinedKey ≠ combinedIn d c ∧ 55 ≤ overlapOf d c row) ∧
    (top2Rows rows d c).length = min 2 (approxRows rows d c).length ∧
    (top2Rows rows d c).Sorted (overlapGE d c) ∧
    ((approxRows rows d c).length ≤ 2 →
      (top2Rows rows d c).Perm (approxRows rows d c)) ∧
    (∀ row ∈ approxRows rows d c, ∀ top ∈ (top2Rows rows d c).head?,
        overlapOf d c row ≤ overlapOf d c top) ∧
    ((analyze rows d c).tier = MatchTier.approxT →
      decisionOf rows d c supplier =
        (top2Rows rows d c).head?.map
          (fun row => get_decision_conclusion supplier row.fairQuote)) := by
  have hsorted : (approxRows rows d c).insertionSort (overlapGE d c) |>.Sorted (overlapGE d c) :=
    List.sorted_insertionSort (overlapGE d c) (approxRows rows d c)
  have hperm := List.perm_insertionSort (overlapGE d c) (approxRows rows d c)
  refine ⟨?_, ?_, ?_, ?_, ?_, ?_⟩
  · intro row hrow
    have hmem := top2_mem_approx rows d c row hrow
    unfold approxRows at hmem
    rw [List.mem_filter] at hmem
    rcases hmem with ⟨hrows, hcond⟩
    rw [decide_eq_true_eq] at hcond
    exact ⟨hrows, hcond.2, hcond.1⟩
  · unfold top2Rows
    rw [List.length_take, hperm.length_eq]
  · unfold top2Rows
    exact List.Pairwise.sublist (List.take_sublist _ _) hsorted
  · intro hle
    unfold top2Rows
    rw [List.take_of_length_le (by rw [hperm.length_eq]; exact hle)]
    exact hperm
  · intro row hrow top htop
    have hrow2 : row ∈ (approxRows rows d c).insertionSort (overlapGE d c) :=
      hperm.symm.subset hrow
    rcases hs : (approxRows rows d c).insertionSort (overlapGE d c) with _ | ⟨t, rest⟩
    · rw [hs] at hrow2
      exact absurd hrow2 (by simp)
    · have htop2 : top = t := by
        unfold top2Rows at htop
        rw [hs] at htop
        simp at htop
        exact htop.symm
      rw [hs] at hrow2 hsorted
      rw [htop2]
      rcases List.mem_cons.mp hrow2 with h | h
      · rw [h]
      · exact List.rel_of_sorted_cons hsorted row h
  · intro ht
    have h1 : ¬ exactRows rows d c ≠ [] := by
      intro h1
      rw [show analyze rows d c = MatchResult.exactM (exactRows rows d c) from by
        unfold analyze; rw [if_pos h1]] at ht
      exact absurd ht (by simp [MatchResult.tier])
    have h2 : top2Rows rows d c ≠ [] := by
      by_contra h2
      rw [show analyze rows d c = if closestRows rows d c ≠ [] then
          MatchResult.weakM (closestRows rows d c) else MatchResult.noneM from by
        unfold analyze; rw [if_neg h1, if_neg (not_not_intro h2)]] at ht
      by_cases h3 : closestRows rows d c ≠ []
      · rw [if_pos h3] at ht
        exact absurd ht (by simp [MatchResult.tier])
      · rw [if_neg h3] at ht
        exact absurd ht (by simp [MatchResult.tier])
    have ha : analyze rows d c = MatchResult.approxM (top2Rows rows d c) := by
      unfold analyze
      rw [if_neg h1, if_pos h2]
    unfold decisionOf
    rw [ha]

/-- Witness for C4: a single qualifying reference row (token-identical
texts, differing combined key) is selected and its overlap is maximal. -/
theorem approx_top2_w :
    rowQ ∈ top2Rows [rowQ] dQ cQ ∧
      (rowQ ∈ [rowQ] ∧ rowQ.combinedKey ≠ combinedIn dQ cQ ∧ 55 ≤ overlapOf dQ cQ rowQ) := by
  have hnd : normDiscIn dQ ≠ [] := by decide
  have hnc : normCorrIn cQ ≠ [] := by decide
  have hsd : semantic_overlap (normDiscIn dQ) rowQ.normDisc = 100 := by
    show semantic_overlap (normDiscIn dQ) (normDiscIn dQ) = 100
    unfold semantic_overlap
    rw [if_neg (by simp [hnd]), ratioQ_self]
    norm_num
  have hsc : semantic_overlap (normCorrIn cQ) rowQ.normCorr = 100 := by
    show semantic_overlap (normCorrIn cQ) (normCorrIn cQ) = 100
    unfold semantic_overlap
    rw [if_neg (by simp [hnc]), ratioQ_self]
    norm_num
  have hov : overlapOf dQ cQ rowQ = 100 := by
    unfold overlapOf
    rw [hsd, hsc]
    norm_num
  have hkey : rowQ.combinedKey ≠ combinedIn dQ cQ := by decide
  have happrox : approxRows [rowQ] dQ cQ = [rowQ] := by
    unfold approxRows
    rw [List.filter_cons, if_pos]
    · rfl
    · rw [decide_eq_true_eq]
      refine ⟨?_, hkey⟩
      rw [hov]
      norm_num
  have htop : top2Rows [rowQ] dQ cQ = [rowQ] := by
    unfold top2Rows
    rw [happrox]
    rfl
  have hmem : rowQ ∈ top2Rows [rowQ] dQ cQ := by
    rw [htop]
    simp
  exact ⟨hmem, (approx_top2 [rowQ] dQ cQ 0).1 rowQ hmem⟩

